import Mathlib

/-!
# Collaborative editor server (`src/server/index.js`)

A shallow embedding of the socket.io event handlers (`JOIN`, `CODE_CHANGE`,
`SYNC_CODE`, `disconnecting`) and of the `/compile` execution proxy
(`preprocessCode`, `sanitizeOutput`, the request handler).

The handlers run on socket.io 4 with its in-memory adapter (the source imports
`Server` and reads `io.sockets.adapter.rooms` as a `Map`).  The library calls
the handlers make are embedded as the library performs them:

* `Socket._onconnect`: every socket joins the room named by its own id;
* `socket.join(room)` is `adapter.addAll(id, rooms)`, an array joining each of
  its elements; `socket.leave(room)` is `adapter.del(id, room)`;
* `io.to(room).emit(..)` broadcasts with `rooms = (room)` and no exception:
  `adapter.apply` visits the sockets of each targeted room;
* `socket.in(room).emit(..)` broadcasts with `rooms = (room)` and
  `except = (socket.id)`; the adapter resolves the exception with
  `computeExceptSids`, the sockets of the room named by the sender's id;
* `adapter.apply` with no targeted room visits every socket of `adapter.sids`;
* within one broadcast a socket is served at most once;
* `Socket._onclose` runs the `disconnecting` listeners and then `leaveAll` and
  the removal of the socket from the namespace.

Value domain: numbers are integers and strings are sequences of Unicode scalar
values.  Arrays nest freely: `join`, `to` and `in` spread the array they are
given once, so an array met two levels down is only ever compared by reference.
-/

namespace Collab

/-! ## JavaScript values -/

/-- A value that socket.io never looks into: a primitive value, or an object
taken by reference (`ref n` is the object with identity `n`; an array found
inside an array that is itself inside an array is such an object). -/
inductive Elem where
  | undefined
  | null
  | bool (b : Bool)
  | num (n : Int)
  | str (s : String)
  | ref (n : Nat)
deriving DecidableEq, Repr

/-- Values that serve as keys of a JavaScript `Map` (compared by SameValueZero):
the primitive values, objects compared by reference (`ref n` is the object
with identity `n`), and arrays compared by reference (`arr n elems` is the
array with identity `n` and elements `elems`).  An array becomes a room key
when it is an element of the array given to `socket.join`. -/
inductive Key where
  | undefined
  | null
  | bool (b : Bool)
  | num (n : Int)
  | str (s : String)
  | ref (n : Nat)
  | arr (n : Nat) (elems : List Elem)
deriving DecidableEq, Repr

/-- An element of an array, as a key. -/
def Elem.toKey : Elem → Key
  | .undefined => .undefined
  | .null => .null
  | .bool b => .bool b
  | .num n => .num n
  | .str s => .str s
  | .ref n => .ref n

/-- The test `Array.isArray(key)`. -/
def Key.isArray : Key → Bool
  | .arr _ _ => true
  | _ => false

/-- A value found in a property of an event payload or handed to the library:
a value that is a possible room key, or an array received in the payload
(which is a new object, and so no key of the adapter's map). -/
inductive JSVal where
  | key (k : Key)
  | arr (elems : List Key)
deriving DecidableEq, Repr

/-- The JavaScript test `typeof v === "string"`, returning the string. -/
def JSVal.asString : JSVal → Option String
  | .key (.str s) => some s
  | _ => none

/-- The rooms named by the argument of `socket.join`, `io.to` or `socket.in`:
`Array.isArray(room) ? room : [room]`. -/
def JSVal.rooms : JSVal → List Key
  | .key (.arr _ elems) => elems.map Elem.toKey
  | .key k => [k]
  | .arr ks => ks

/-- Identity of a connection (`socket.id`), a string chosen by the server. -/
abbrev SocketId := String

/-! ## Server state -/

/-- Process state read and written by the handlers. -/
structure State where
  /-- Connected sockets of the namespace (`nsp.sockets`), in connection order. -/
  sockets : List SocketId
  /-- Room membership kept by the adapter, one pair per (socket, room), in the
  order the memberships were created.  The adapter indexes it twice:
  `adapter.rooms` (room to sockets) and `adapter.sids` (socket to rooms). -/
  memberships : List (SocketId × Key)
  /-- The `userSocketMap` of the source: socket id to display name. -/
  userSocketMap : List (SocketId × JSVal)
deriving DecidableEq, Repr

/-- The state of a freshly started server. -/
def State.init : State := ⟨[], [], []⟩

/-- Sockets of a room, `adapter.rooms.get(room)` read as a list (empty when the
map has no such room: the adapter deletes a room when its last socket leaves). -/
def State.roomMembers (s : State) (room : Key) : List SocketId :=
  (s.memberships.filter (fun p => p.2 = room)).map Prod.fst

/-- Rooms of a socket, `socket.rooms` (`adapter.sids.get(id)`). -/
def State.socketRooms (s : State) (id : SocketId) : List Key :=
  (s.memberships.filter (fun p => p.1 = id)).map Prod.snd

/-- Keep the first occurrence of every element. -/
def firstOccurrences : List SocketId → List SocketId
  | [] => []
  | x :: xs => x :: (firstOccurrences xs).filter (fun y => y ≠ x)

/-- Keys of `adapter.sids`: the sockets that have a membership. -/
def State.sids (s : State) : List SocketId :=
  firstOccurrences (s.memberships.map Prod.fst)

/-- Lookup `userSocketMap.get(id)`; `none` when the map has no entry. -/
def State.lookup (s : State) (id : SocketId) : Option JSVal :=
  s.userSocketMap.lookup id

/-- Value of the expression `userSocketMap.get(id)`: `undefined` when absent. -/
def State.userGet (s : State) (id : SocketId) : JSVal :=
  (s.lookup id).getD (.key .undefined)

/-- Update of an association list as `Map.prototype.set` does it: an existing
key keeps its place, a new key goes last. -/
def mapSet (id : SocketId) (v : JSVal) : List (SocketId × JSVal) → List (SocketId × JSVal)
  | [] => [(id, v)]
  | (k, w) :: rest => if k = id then (k, v) :: rest else (k, w) :: mapSet id v rest

/-- Statement `userSocketMap.set(id, v)`. -/
def State.userSet (s : State) (id : SocketId) (v : JSVal) : State :=
  { s with userSocketMap := mapSet id v s.userSocketMap }

/-- Statement `userSocketMap.delete(id)`. -/
def State.userDelete (s : State) (id : SocketId) : State :=
  { s with userSocketMap := s.userSocketMap.filter (fun p => p.1 ≠ id) }

/-- Adapter `addAll(id, rooms)`: add the socket to each room it is not in yet. -/
def addAll (id : SocketId) : List Key → List (SocketId × Key) → List (SocketId × Key)
  | [], ms => ms
  | room :: rest, ms => addAll id rest (if (id, room) ∈ ms then ms else ms ++ [(id, room)])

/-- Call `socket.join(room)`. -/
def State.join (s : State) (id : SocketId) (room : JSVal) : State :=
  { s with memberships := addAll id room.rooms s.memberships }

/-- Call `socket.leave(room)`: adapter `del(id, room)`. -/
def State.leave (s : State) (id : SocketId) (room : Key) : State :=
  { s with memberships := s.memberships.filter (fun p => p ≠ (id, room)) }

/-- Adapter `computeExceptSids`: the sockets of the excepted rooms. -/
def State.computeExceptSids (s : State) (exceptRooms : List Key) : List SocketId :=
  exceptRooms.flatMap s.roomMembers

/-- Inner loop of adapter `apply`: visit the sockets of one room, skipping the
ones already served, the excepted ones and the ones no longer connected. -/
def State.visit (s : State) (except : List SocketId) :
    List SocketId → List SocketId → List SocketId
  | ids, [] => ids
  | ids, id :: rest =>
    if id ∈ ids ∨ id ∈ except then s.visit except ids rest
    else if id ∈ s.sockets then s.visit except (ids ++ [id]) rest
    else s.visit except ids rest

/-- Outer loop of adapter `apply` over the targeted rooms. -/
def State.visitRooms (s : State) (except : List SocketId) :
    List SocketId → List Key → List SocketId
  | ids, [] => ids
  | ids, room :: rest => s.visitRooms except (s.visit except ids (s.roomMembers room)) rest

/-- Adapter `apply(opts, callback)`: the sockets a broadcast to `rooms` except
`exceptRooms` reaches, each once, in delivery order.  With no room targeted the
broadcast goes to every socket of `adapter.sids`. -/
def State.apply (s : State) (rooms exceptRooms : List Key) : List SocketId :=
  let except := s.computeExceptSids exceptRooms
  if rooms.isEmpty then
    s.sids.filter (fun id => id ∉ except ∧ id ∈ s.sockets)
  else
    s.visitRooms except [] rooms

/-- Recipients of `io.to(room).emit(..)`. -/
def State.ioTo (s : State) (room : JSVal) : List SocketId :=
  s.apply room.rooms []

/-- Recipients of `socket.in(room).emit(..)`: the broadcast excepts the room
named by the sender's id. -/
def State.socketIn (s : State) (socket : SocketId) (room : JSVal) : List SocketId :=
  s.apply room.rooms [Key.str socket]

/-- Teardown that socket.io performs after the `disconnecting` listeners:
`leaveAll` and removal from the namespace. -/
def State.cleanup (s : State) (id : SocketId) : State :=
  { s with
    sockets := s.sockets.filter (fun x => x ≠ id)
    memberships := s.memberships.filter (fun p => p.1 ≠ id) }

/-- A new connection: the socket enters the namespace and joins the room named
by its id. -/
def State.connect (s : State) (id : SocketId) : State :=
  { s with
    sockets := s.sockets ++ [id]
    memberships := addAll id [Key.str id] s.memberships }

/-! ## Events -/

/-- Modelled from the spec: the event names of `./Actions` (`JOINED`,
`CODE_CHANGE`, `DISCONNECTED`), which is not among the sources; one constructor
per server-to-client event of the spec's event table, with its payload. -/
inductive Event where
  | joined (clients : List (SocketId × JSVal)) (username : JSVal) (socketId : SocketId)
  | codeChange (code : String)
  | disconnected (socketId : SocketId) (username : JSVal)
deriving DecidableEq, Repr

/-- One packet handed to one connection. -/
abbrev Delivery := SocketId × Event

/-- The properties a handler destructures from its payload (`undefined` when
the payload lacks the property). -/
structure Fields where
  roomId : JSVal := .key .undefined
  username : JSVal := .key .undefined
  code : JSVal := .key .undefined
  socketId : JSVal := .key .undefined
deriving DecidableEq, Repr

/-- First argument of a client event: `nullish` when it is `undefined` or `null`
(no argument sent), which cannot be destructured; otherwise the properties read
from it (a primitive payload has none of them). -/
inductive Payload where
  | nullish
  | object (f : Fields)
deriving DecidableEq, Repr

/-- Exceptions thrown by the embedded code. -/
inductive JSError where
  | typeError
deriving DecidableEq, Repr

/-- Result of running a handler: the exception thrown, or the next state and
the packets delivered, in order. -/
abbrev Outcome := Except JSError (State × List Delivery)

instance : DecidableEq Outcome
  | .ok a, .ok b => if h : a = b then isTrue (by rw [h]) else isFalse (fun e => h (Except.ok.inj e))
  | .error a, .error b =>
    if h : a = b then isTrue (by rw [h]) else isFalse (fun e => h (Except.error.inj e))
  | .ok _, .error _ => isFalse (fun e => by cases e)
  | .error _, .ok _ => isFalse (fun e => by cases e)

/-! ## Handlers -/

/-- The expression `io.sockets.adapter.rooms.get(roomId)`: the sockets of the
room, or `none` (JavaScript `undefined`) when the map has no such key.  The
adapter deletes a room when its last socket leaves, and an array received in
the payload is no key of the map (`join` spreads it). -/
def State.roomsGet (s : State) : JSVal → Option (List SocketId)
  | .key k => if s.roomMembers k = [] then none else some (s.roomMembers k)
  | .arr _ => none

/-- Source `getAllConnectedClients(roomId)`. -/
def getAllConnectedClients (s : State) (roomId : JSVal) : List (SocketId × JSVal) :=
  match s.roomsGet roomId with
  | none => []
  | some room => room.map (fun socketId => (socketId, s.userGet socketId))

/-- Handler `socket.on(ACTIONS.JOIN, ({ roomId, username }) => ..)`. -/
def onJoin (s : State) (socket : SocketId) : Payload → Outcome
  | .nullish => .error .typeError
  | .object f =>
    let s1 := s.userSet socket f.username
    let s2 := s1.join socket f.roomId
    let clients := getAllConnectedClients s2 f.roomId
    .ok (s2, clients.flatMap (fun c =>
      (s2.ioTo (.key (.str c.1))).map (fun r => (r, Event.joined clients f.username socket))))

/-- Handler `socket.on(ACTIONS.CODE_CHANGE, ({ roomId, code }) => ..)`. -/
def onCodeChange (s : State) (socket : SocketId) : Payload → Outcome
  | .nullish => .error .typeError
  | .object f =>
    match f.code.asString with
    | none => .ok (s, [])
    | some code => .ok (s, (s.socketIn socket f.roomId).map (fun r => (r, Event.codeChange code)))

/-- Handler `socket.on(ACTIONS.SYNC_CODE, ({ socketId, code }) => ..)`. -/
def onSyncCode (s : State) (_socket : SocketId) : Payload → Outcome
  | .nullish => .error .typeError
  | .object f =>
    match f.code.asString with
    | none => .ok (s, [])
    | some code => .ok (s, (s.ioTo f.socketId).map (fun r => (r, Event.codeChange code)))

/-- Handler `socket.on("disconnecting", () => ..)`.  A key of `socket.rooms`
that is an array is spread by `socket.in`, as every array is. -/
def onDisconnecting (s : State) (socket : SocketId) : State × List Delivery :=
  let rooms := s.socketRooms socket
  let out := rooms.flatMap (fun roomId =>
    if roomId ≠ Key.str socket then
      (s.socketIn socket (.key roomId)).map
        (fun r => (r, Event.disconnected socket (s.userGet socket)))
    else [])
  let s1 := s.userDelete socket
  let s2 := s1.leave socket Key.undefined
  (s2, out)

/-- The DISCONNECT transition: the `disconnecting` handler followed by the
teardown of the socket. -/
def disconnect (s : State) (socket : SocketId) : State × List Delivery :=
  let r := onDisconnecting s socket
  (r.1.cleanup socket, r.2)

/-! ## Runs of the server -/

/-- What can happen to the server: a transport connection, one of the three
client events arriving on a connected socket, or a disconnection. -/
inductive Action where
  | connect (id : SocketId)
  | join (id : SocketId) (p : Payload)
  | codeChange (id : SocketId) (p : Payload)
  | syncCode (id : SocketId) (p : Payload)
  | disconnect (id : SocketId)
deriving DecidableEq, Repr

/-- One transition.  A connection gets an id that no connected socket has;
events and disconnections come from connected sockets; a handler that throws
yields no next state. -/
def step (s : State) : Action → Option (State × List Delivery)
  | .connect id => if id ∈ s.sockets then none else some (s.connect id, [])
  | .join id p => if id ∈ s.sockets then (onJoin s id p).toOption else none
  | .codeChange id p => if id ∈ s.sockets then (onCodeChange s id p).toOption else none
  | .syncCode id p => if id ∈ s.sockets then (onSyncCode s id p).toOption else none
  | .disconnect id => if id ∈ s.sockets then some (disconnect s id) else none

/-- The state after a sequence of transitions, when each of them is enabled. -/
def run (s : State) : List Action → Option State
  | [] => some s
  | a :: rest =>
    match step s a with
    | none => none
    | some r => run r.1 rest

/-- States the server gets into from its initial state. -/
def Reachable (s : State) : Prop := ∃ acts, run State.init acts = some s

/-- Consistency of the socket.io bookkeeping: every connected socket is in the
room named by its id, only connected sockets are in rooms, and neither the
sockets nor the memberships repeat. -/
def Inv (s : State) : Prop :=
  (∀ id ∈ s.sockets, (id, Key.str id) ∈ s.memberships) ∧
  (∀ p ∈ s.memberships, p.1 ∈ s.sockets) ∧
  s.memberships.Nodup ∧ s.sockets.Nodup

instance (s : State) : Decidable (Inv s) := by
  unfold Inv; infer_instance

/-- Whether an action changes or removes the display name of connection `c`:
a JOIN sent by `c`, or the disconnection of `c`. -/
def Action.rebinds (c : SocketId) : Action → Bool
  | .join id _ => id = c
  | .disconnect id => id = c
  | _ => false

/-- The JOIN payload with the given room id and user name. -/
def joinPayload (roomId username : JSVal) : Payload :=
  .object { roomId := roomId, username := username }

/-- The CODE_CHANGE payload with the given room id and code. -/
def codeChangePayload (roomId code : JSVal) : Payload :=
  .object { roomId := roomId, code := code }

/-- The SYNC_CODE payload with the given target and code. -/
def syncCodePayload (socketId code : JSVal) : Payload :=
  .object { socketId := socketId, code := code }

/-- Number of packets a connection receives among the deliveries. -/
def received (out : List Delivery) (id : SocketId) : Nat :=
  (out.filter (fun d => d.1 = id)).length

/-! ## Scenarios -/

/-- The string `v` as a payload value. -/
def jsStr (v : String) : JSVal := .key (.str v)

/-- Two connections, `A` and `X`, that have joined nothing yet. -/
def twoSockets : State :=
  ⟨["A", "X"], [("A", .str "A"), ("X", .str "X")], []⟩

/-- Connection `X` has sent a JOIN whose room id is the id of connection `A`. -/
def idRoomShared : State :=
  ⟨["A", "X"], [("A", .str "A"), ("X", .str "X"), ("X", .str "A")], [("X", jsStr "x")]⟩

/-- Both connections have joined room `r`. -/
def roomOfTwo : State :=
  ⟨["A", "X"], [("A", .str "A"), ("X", .str "X"), ("A", .str "r"), ("X", .str "r")],
    [("A", jsStr "a"), ("X", jsStr "x")]⟩

/-- Both connections have joined room `r`, and `X` also the room named by the
id of `A`. -/
def roomOfTwoShared : State :=
  ⟨["A", "X"],
    [("A", .str "A"), ("X", .str "X"), ("X", .str "A"), ("A", .str "r"), ("X", .str "r")],
    [("X", jsStr "x"), ("A", jsStr "a")]⟩

/-- Connection `A` has sent a JOIN whose room id is an array holding the array
with the one element `r`, so that this inner array keys a room of `A`;
connection `X` has joined room `r`. -/
def arrayKeyed : State :=
  ⟨["A", "X"],
    [("A", .str "A"), ("X", .str "X"), ("A", .arr 0 [.str "r"]), ("X", .str "r")],
    [("A", jsStr "a"), ("X", jsStr "x")]⟩

/-! ## Execution proxy -/

/-- An entry of `languageConfig`. -/
structure LanguageConfig where
  engine : String
  version : String
  extension : String
  template : String → String
  compile : Bool

/-- The table `languageConfig` of the source: its own properties, in order. -/
def languageConfig : List (String × LanguageConfig) :=
  [ ("python3", ⟨"python", "3.10", "py", fun code => code, false⟩),
    ("java", ⟨"java", "15.0.2", "java", fun code =>
      "\npublic class Main \x7b\n    public static void main(String[] args) \x7b\n        "
        ++ code ++ "\n    \x7d\n\x7d", true⟩),
    ("cpp", ⟨"c++", "10.2.0", "cpp", fun code =>
      "\n#include <iostream>\nusing namespace std;\n\nint main() \x7b\n    "
        ++ code ++ "\n    return 0;\n\x7d", true⟩),
    ("nodejs", ⟨"node", "15.8.0", "js", fun code => code, false⟩),
    ("c", ⟨"c", "10.2.0", "c", fun code =>
      "\n#include <stdio.h>\n\nint main() \x7b\n    " ++ code ++ "\n    return 0;\n\x7d", true⟩),
    ("ruby", ⟨"ruby", "3.0.0", "rb", fun code => code, false⟩),
    ("go", ⟨"go", "1.16.2", "go", fun code =>
      "\npackage main\n\nimport \"fmt\"\n\nfunc main() \x7b\n    " ++ code ++ "\n\x7d", true⟩),
    ("swift", ⟨"swift", "5.3.3", "swift", fun code => code, true⟩),
    ("rust", ⟨"rust", "1.50.0", "rs", fun code =>
      "\nfn main() \x7b\n    " ++ code ++ "\n\x7d", true⟩),
    ("csharp", ⟨"c#", "5.0.201", "cs", fun code =>
      "\nusing System;\n\nclass Program \x7b\n    static void Main() \x7b\n        "
        ++ code ++ "\n    \x7d\n\x7d", true⟩) ]

/-- The ten language identifiers of the table. -/
def supportedLanguages : List String := languageConfig.map Prod.fst

/-- Property names every JavaScript object inherits from `Object.prototype`;
each of them evaluates to a function or an object, none of which has a
`template` method. -/
def objectPrototypeKeys : List String :=
  ["constructor", "hasOwnProperty", "isPrototypeOf", "propertyIsEnumerable",
   "toLocaleString", "toString", "valueOf", "__proto__", "__defineGetter__",
   "__defineSetter__", "__lookupGetter__", "__lookupSetter__"]

/-- Value of a property access `languageConfig[language]`. -/
inductive Property where
  | own (config : LanguageConfig)
  | inherited
  | undefined

/-- The expression `languageConfig[language]`: an own property of the table, a
property inherited through the prototype chain, or `undefined`. -/
def lookupLanguage (language : String) : Property :=
  match languageConfig.lookup language with
  | some config => .own config
  | none => if language ∈ objectPrototypeKeys then .inherited else .undefined

/-- Errors raised inside the execution proxy. -/
inductive ProxyError where
  | unsupported (message : String)
  | typeError
deriving DecidableEq, Repr

/-- Source `preprocessCode(code, language)`. -/
def preprocessCode (code language : String) : Except ProxyError String :=
  match lookupLanguage language with
  | .undefined => .error (.unsupported ("Unsupported language: " ++ language))
  | .inherited => .error .typeError
  | .own config => .ok (config.template code)

/-- Code of a JavaScript white space or line terminator character, the
characters `String.prototype.trim` removes. -/
def isTrimChar (c : Char) : Bool :=
  c.toNat ∈ [0x9, 0xA, 0xB, 0xC, 0xD, 0x20, 0xA0, 0x1680, 0x2000, 0x2001, 0x2002, 0x2003,
    0x2004, 0x2005, 0x2006, 0x2007, 0x2008, 0x2009, 0x200A, 0x2028, 0x2029, 0x202F, 0x205F,
    0x3000, 0xFEFF]

/-- The backslash character. -/
def backslash : Char := Char.ofNat 92

/-- The line feed character. -/
def lineFeed : Char := Char.ofNat 10

/-- The double quote character. -/
def doubleQuote : Char := Char.ofNat 34

/-- The single quote character. -/
def singleQuote : Char := Char.ofNat 39

/-- Method `trim()`. -/
def jsTrim (l : List Char) : List Char :=
  ((l.dropWhile isTrimChar).reverse.dropWhile isTrimChar).reverse

/-- The call `replace(/\\n/g, "\n")`: every backslash followed by `n`, scanning
from the left, becomes one line feed. -/
def replaceEscapedNewlines : List Char → List Char
  | [] => []
  | [c] => [c]
  | a :: b :: rest =>
    if a = backslash ∧ b = 'n' then lineFeed :: replaceEscapedNewlines rest
    else a :: replaceEscapedNewlines (b :: rest)

/-- Method `startsWith(q)` for a one-character string `q`. -/
def jsStartsWith (l : List Char) (q : Char) : Bool :=
  l.take 1 == [q]

/-- Method `endsWith(q)` for a one-character string `q`. -/
def jsEndsWith (l : List Char) (q : Char) : Bool :=
  l.drop (l.length - 1) == [q]

/-- Method `slice(1, -1)`: the characters from index 1 up to the last one,
excluded. -/
def jsSliceInner (l : List Char) : List Char :=
  (l.take (l.length - 1)).drop 1

/-- Source `sanitizeOutput(output)`; `none` is an absent (`undefined` or
`null`) output. -/
def sanitizeOutput (output : Option String) : String :=
  match output with
  | none => ""
  | some text =>
    if text = "" then ""
    else
      let sanitized := jsTrim text.data
      let sanitized := replaceEscapedNewlines sanitized
      let sanitized :=
        if (jsStartsWith sanitized doubleQuote && jsEndsWith sanitized doubleQuote) ||
            (jsStartsWith sanitized singleQuote && jsEndsWith sanitized singleQuote)
        then jsSliceInner sanitized else sanitized
      String.mk sanitized

/-- The normalization as the specification words it, step one: remove the
white space that surrounds the text. -/
def specTrim (l : List Char) : List Char :=
  (l.dropWhile isTrimChar).rdropWhile isTrimChar

/-- Step two: the text is cut at every escaped newline sequence (a backslash
followed by `n`); `specPieces` gives the pieces between the sequences. -/
def specPieces : List Char → List (List Char)
  | [] => [[]]
  | [c] => [[c]]
  | a :: b :: rest =>
    if a = backslash ∧ b = 'n' then [] :: specPieces rest
    else
      match specPieces (b :: rest) with
      | [] => [[a]]
      | piece :: pieces => (a :: piece) :: pieces

/-- Step two: the pieces joined by literal newlines. -/
def specUnescape (l : List Char) : List Char :=
  List.intercalate [lineFeed] (specPieces l)

/-- Step three: when the text starts and ends with the same quote character,
single or double, drop that first and that last character. -/
def specStripQuotes (l : List Char) : List Char :=
  if (l.head? = some doubleQuote ∧ l.getLast? = some doubleQuote) ∨
      (l.head? = some singleQuote ∧ l.getLast? = some singleQuote)
  then l.tail.dropLast else l

/-- Output normalization as the specification words it; an empty or absent
input gives the empty string. -/
def specNormalize (output : Option String) : String :=
  match output with
  | none => ""
  | some text => String.mk (specStripQuotes (specUnescape (specTrim text.data)))

/-- The body sent upstream: `{ language, version, files: [{ name, content }],
stdin: "" }`. -/
structure PistonPayload where
  language : String
  version : String
  fileName : String
  content : String
  stdin : String
deriving DecidableEq, Repr

/-- The `run` object of an upstream response. -/
structure RunResult where
  stdout : Option String
  stderr : Option String
deriving DecidableEq, Repr

/-- What `axios.post` yields: a response (`run` is `response.data.run`, absent
when the response has none), or a rejection (`message` is
`error.response?.data?.message`, absent when the error carries none). -/
inductive UpstreamResult where
  | response (run : Option RunResult)
  | rejected (message : Option String)
deriving DecidableEq, Repr

/-- The upstream execution service, as the handler sees it. -/
abbrev Upstream := PistonPayload → UpstreamResult

/-- Body of an HTTP response: a JSON object with an `error` property, or plain
text. -/
inductive ResponseBody where
  | jsonError (error : String)
  | text (content : String)
deriving DecidableEq, Repr

/-- Outcome of a request: the status, the body, and the payloads the handler
posted upstream. -/
structure Response where
  status : Nat
  body : ResponseBody
  forwarded : List PistonPayload
deriving DecidableEq, Repr

/-- Body of a `/compile` request with properties `code` and `language`, each
absent or a string. -/
structure CompileRequest where
  code : Option String
  language : Option String
deriving DecidableEq, Repr

/-- JavaScript truthiness of an absent-or-string value. -/
def truthy : Option String → Bool
  | none => false
  | some text => text ≠ ""

/-- The response of the `catch` branch: status 500 with the upstream message
when there is one, a generic message otherwise. -/
def failureResponse (message : Option String) (forwarded : List PistonPayload) : Response :=
  ⟨500, .jsonError (if truthy message then message.getD "" else "Failed to compile code"),
    forwarded⟩

/-- Handler `app.post("/compile", ..)`.  An exception thrown inside the `try`
block (by `preprocessCode`, or by reading `response.data.run.stdout` when the
response has no `run`) carries no upstream response and is answered by the
`catch` branch. -/
def compileHandler (upstream : Upstream) (req : CompileRequest) : Response :=
  if ¬ truthy req.code ∨ ¬ truthy req.language then
    ⟨400, .jsonError "Missing required parameters: code and language", []⟩
  else
    let code := req.code.getD ""
    let language := req.language.getD ""
    match lookupLanguage language with
    | .undefined => ⟨400, .jsonError ("Unsupported language: " ++ language), []⟩
    | .inherited =>
      -- `config` is truthy, and `preprocessCode` throws at `config.template(code)`
      match preprocessCode code language with
      | .error _ => failureResponse none []
      | .ok _ => failureResponse none []
    | .own config =>
      match preprocessCode code language with
      | .error _ => failureResponse none []
      | .ok processedCode =>
        let payload : PistonPayload :=
          ⟨config.engine, config.version, "main." ++ config.extension, processedCode, ""⟩
        match upstream payload with
        | .rejected message => failureResponse message [payload]
        | .response none => failureResponse none [payload]
        | .response (some run) =>
          let output := if truthy run.stdout then run.stdout.getD "" else ""
          let output :=
            if truthy run.stderr then
              output ++ (if output ≠ "" then "\nError:\n" ++ run.stderr.getD ""
                else run.stderr.getD "")
            else output
          ⟨200, .text (sanitizeOutput (some output)), [payload]⟩

/-! ## The socket.io layer -/

theorem mem_roomMembers {s : State} {x : SocketId} {r : Key} :
    x ∈ s.roomMembers r ↔ (x, r) ∈ s.memberships := by
  unfold State.roomMembers
  constructor
  · intro h
    obtain ⟨p, hp, rfl⟩ := List.mem_map.1 h
    have h2 := List.mem_filter.1 hp
    have h3 : p.2 = r := by simpa using h2.2
    rw [← h3]; exact h2.1
  · intro h
    exact List.mem_map.2 ⟨(x, r), List.mem_filter.2 ⟨h, by simp⟩, rfl⟩

theorem mem_socketRooms {s : State} {x : SocketId} {r : Key} :
    r ∈ s.socketRooms x ↔ (x, r) ∈ s.memberships := by
  unfold State.socketRooms
  constructor
  · intro h
    obtain ⟨p, hp, rfl⟩ := List.mem_map.1 h
    have h2 := List.mem_filter.1 hp
    have h3 : p.1 = x := by simpa using h2.2
    rw [← h3]; exact h2.1
  · intro h
    exact List.mem_map.2 ⟨(x, r), List.mem_filter.2 ⟨h, by simp⟩, rfl⟩

theorem mem_addAll {id : SocketId} {rooms : List Key} {ms : List (SocketId × Key)}
    {p : SocketId × Key} :
    p ∈ addAll id rooms ms ↔ p ∈ ms ∨ (p.1 = id ∧ p.2 ∈ rooms) := by
  induction rooms generalizing ms with
  | nil => simp [addAll]
  | cons room rest ih =>
    rw [addAll, ih]
    by_cases h : (id, room) ∈ ms
    · rw [if_pos h]
      constructor
      · rintro (h1 | ⟨h1, h2⟩)
        · exact Or.inl h1
        · exact Or.inr ⟨h1, List.mem_cons_of_mem _ h2⟩
      · rintro (h1 | ⟨h1, h2⟩)
        · exact Or.inl h1
        · rcases List.mem_cons.1 h2 with h3 | h3
          · left
            have : p = (id, room) := Prod.ext h1 h3
            rw [this]; exact h
          · exact Or.inr ⟨h1, h3⟩
    · rw [if_neg h]
      constructor
      · rintro (h1 | ⟨h1, h2⟩)
        · rcases List.mem_append.1 h1 with h3 | h3
          · exact Or.inl h3
          · have : p = (id, room) := by simpa using h3
            right; rw [this]; simp
        · exact Or.inr ⟨h1, List.mem_cons_of_mem _ h2⟩
      · rintro (h1 | ⟨h1, h2⟩)
        · exact Or.inl (List.mem_append_left _ h1)
        · rcases List.mem_cons.1 h2 with h3 | h3
          · left
            have : p = (id, room) := Prod.ext h1 h3
            rw [this]; simp
          · exact Or.inr ⟨h1, h3⟩

theorem nodup_addAll {id : SocketId} {rooms : List Key} {ms : List (SocketId × Key)}
    (h : ms.Nodup) : (addAll id rooms ms).Nodup := by
  induction rooms generalizing ms with
  | nil => simpa [addAll] using h
  | cons room rest ih =>
    rw [addAll]
    apply ih
    by_cases h1 : (id, room) ∈ ms
    · rw [if_pos h1]; exact h
    · rw [if_neg h1]
      exact List.Nodup.append h (List.nodup_singleton _) (by
        intro a ha hb
        have : a = (id, room) := by simpa using hb
        exact h1 (this ▸ ha))

theorem mem_visit {s : State} {ex ids l : List SocketId} {x : SocketId} :
    x ∈ s.visit ex ids l ↔ x ∈ ids ∨ (x ∈ l ∧ x ∉ ex ∧ x ∈ s.sockets) := by
  induction l generalizing ids with
  | nil => simp [State.visit]
  | cons a rest ih =>
    rw [State.visit]
    by_cases h1 : a ∈ ids ∨ a ∈ ex
    · rw [if_pos h1, ih]
      constructor
      · rintro (h | ⟨h, h2⟩)
        · exact Or.inl h
        · exact Or.inr ⟨List.mem_cons_of_mem _ h, h2⟩
      · rintro (h | ⟨h, h2, h3⟩)
        · exact Or.inl h
        · rcases List.mem_cons.1 h with h4 | h4
          · subst h4
            rcases h1 with h1 | h1
            · exact Or.inl h1
            · exact absurd h1 h2
          · exact Or.inr ⟨h4, h2, h3⟩
    · rw [if_neg h1]
      have h1a : a ∉ ids := fun h => h1 (Or.inl h)
      have h1b : a ∉ ex := fun h => h1 (Or.inr h)
      by_cases h2 : a ∈ s.sockets
      · rw [if_pos h2, ih]
        constructor
        · rintro (h | ⟨h, h3⟩)
          · rcases List.mem_append.1 h with h4 | h4
            · exact Or.inl h4
            · have : x = a := by simpa using h4
              subst this
              exact Or.inr ⟨List.mem_cons_self _ _, h1b, h2⟩
          · exact Or.inr ⟨List.mem_cons_of_mem _ h, h3⟩
        · rintro (h | ⟨h, h3, h4⟩)
          · exact Or.inl (List.mem_append_left _ h)
          · rcases List.mem_cons.1 h with h5 | h5
            · subst h5
              exact Or.inl (List.mem_append_right _ (List.mem_singleton_self _))
            · exact Or.inr ⟨h5, h3, h4⟩
      · rw [if_neg h2, ih]
        constructor
        · rintro (h | ⟨h, h3⟩)
          · exact Or.inl h
          · exact Or.inr ⟨List.mem_cons_of_mem _ h, h3⟩
        · rintro (h | ⟨h, h3, h4⟩)
          · exact Or.inl h
          · rcases List.mem_cons.1 h with h5 | h5
            · subst h5; exact absurd h4 h2
            · exact Or.inr ⟨h5, h3, h4⟩

theorem nodup_visit {s : State} {ex ids l : List SocketId} (h : ids.Nodup) :
    (s.visit ex ids l).Nodup := by
  induction l generalizing ids with
  | nil => simpa [State.visit] using h
  | cons a rest ih =>
    rw [State.visit]
    by_cases h1 : a ∈ ids ∨ a ∈ ex
    · rw [if_pos h1]; exact ih h
    · rw [if_neg h1]
      by_cases h2 : a ∈ s.sockets
      · rw [if_pos h2]
        apply ih
        exact List.Nodup.append h (List.nodup_singleton _) (by
          intro b hb hc
          have : b = a := by simpa using hc
          exact h1 (Or.inl (this ▸ hb)))
      · rw [if_neg h2]; exact ih h

theorem mem_visitRooms {s : State} {ex ids : List SocketId} {rooms : List Key} {x : SocketId} :
    x ∈ s.visitRooms ex ids rooms ↔
      x ∈ ids ∨ ((∃ r ∈ rooms, x ∈ s.roomMembers r) ∧ x ∉ ex ∧ x ∈ s.sockets) := by
  induction rooms generalizing ids with
  | nil => simp [State.visitRooms]
  | cons room rest ih =>
    rw [State.visitRooms, ih, mem_visit]
    constructor
    · rintro ((h | ⟨h, h2⟩) | ⟨⟨r, hr, h⟩, h2⟩)
      · exact Or.inl h
      · exact Or.inr ⟨⟨room, List.mem_cons_self _ _, h⟩, h2⟩
      · exact Or.inr ⟨⟨r, List.mem_cons_of_mem _ hr, h⟩, h2⟩
    · rintro (h | ⟨⟨r, hr, h⟩, h2⟩)
      · exact Or.inl (Or.inl h)
      · rcases List.mem_cons.1 hr with h3 | h3
        · subst h3; exact Or.inl (Or.inr ⟨h, h2⟩)
        · exact Or.inr ⟨⟨r, h3, h⟩, h2⟩

theorem nodup_visitRooms {s : State} {ex ids : List SocketId} {rooms : List Key}
    (h : ids.Nodup) : (s.visitRooms ex ids rooms).Nodup := by
  induction rooms generalizing ids with
  | nil => simpa [State.visitRooms] using h
  | cons room rest ih =>
    rw [State.visitRooms]
    exact ih (nodup_visit h)

theorem mem_firstOccurrences {l : List SocketId} {x : SocketId} :
    x ∈ firstOccurrences l ↔ x ∈ l := by
  induction l with
  | nil => simp [firstOccurrences]
  | cons a rest ih =>
    rw [firstOccurrences, List.mem_cons, List.mem_cons, List.mem_filter, ih]
    constructor
    · rintro (h | ⟨h, _⟩)
      · exact Or.inl h
      · exact Or.inr h
    · rintro (h | h)
      · exact Or.inl h
      · by_cases hx : x = a
        · exact Or.inl hx
        · exact Or.inr ⟨h, by simpa using hx⟩

theorem nodup_firstOccurrences (l : List SocketId) : (firstOccurrences l).Nodup := by
  induction l with
  | nil => simp [firstOccurrences]
  | cons a rest ih =>
    rw [firstOccurrences, List.nodup_cons]
    refine ⟨?_, ih.filter _⟩
    intro h
    have := (List.mem_filter.1 h).2
    simp at this

theorem mem_sids {s : State} {x : SocketId} :
    x ∈ s.sids ↔ ∃ r, (x, r) ∈ s.memberships := by
  unfold State.sids
  rw [mem_firstOccurrences, List.mem_map]
  constructor
  · rintro ⟨p, hp, rfl⟩; exact ⟨p.2, hp⟩
  · rintro ⟨r, hr⟩; exact ⟨(x, r), hr, rfl⟩

theorem mem_computeExceptSids {s : State} {rooms : List Key} {x : SocketId} :
    x ∈ s.computeExceptSids rooms ↔ ∃ r ∈ rooms, (x, r) ∈ s.memberships := by
  unfold State.computeExceptSids
  simp only [List.mem_flatMap, mem_roomMembers]

theorem nodup_apply (s : State) (rooms exceptRooms : List Key) :
    (s.apply rooms exceptRooms).Nodup := by
  unfold State.apply
  by_cases h : rooms.isEmpty
  · simp only [h, if_true]
    exact (nodup_firstOccurrences _).filter _
  · simp only [h]
    exact nodup_visitRooms List.nodup_nil

theorem mem_apply_of_ne_nil {s : State} {rooms exceptRooms : List Key} {x : SocketId}
    (h : rooms ≠ []) :
    x ∈ s.apply rooms exceptRooms ↔
      (∃ r ∈ rooms, (x, r) ∈ s.memberships) ∧
      (¬ ∃ r ∈ exceptRooms, (x, r) ∈ s.memberships) ∧ x ∈ s.sockets := by
  unfold State.apply
  have h2 : rooms.isEmpty = false := by
    cases rooms with
    | nil => exact absurd rfl h
    | cons a l => rfl
  simp only [h2, Bool.false_eq_true, if_false]
  rw [mem_visitRooms, mem_computeExceptSids]
  simp only [List.not_mem_nil, false_or, mem_roomMembers]

theorem mem_apply_nil {s : State} {exceptRooms : List Key} {x : SocketId} :
    x ∈ s.apply [] exceptRooms ↔
      (∃ r, (x, r) ∈ s.memberships) ∧
      (¬ ∃ r ∈ exceptRooms, (x, r) ∈ s.memberships) ∧ x ∈ s.sockets := by
  unfold State.apply
  simp only [List.isEmpty_nil, if_true]
  rw [List.mem_filter, mem_sids]
  simp only [decide_eq_true_eq, mem_computeExceptSids]

/-! ## The bookkeeping invariant -/

theorem inv_of_eq {s t : State} (h1 : t.sockets = s.sockets)
    (h2 : t.memberships = s.memberships) (h : Inv s) : Inv t := by
  unfold Inv at *
  rw [h1, h2]; exact h

theorem inv_init : Inv State.init := by decide

theorem inv_connect {s : State} {id : SocketId} (h : Inv s) (hid : id ∉ s.sockets) :
    Inv (s.connect id) := by
  obtain ⟨hown, hconn, hnm, hns⟩ := h
  refine ⟨?_, ?_, ?_, ?_⟩
  · intro x hx
    show (x, Key.str x) ∈ addAll id [Key.str id] s.memberships
    rw [mem_addAll]
    rcases List.mem_append.1 hx with h1 | h1
    · exact Or.inl (hown x h1)
    · have : x = id := by simpa using h1
      subst this
      exact Or.inr ⟨rfl, by simp⟩
  · intro p hp
    have hp2 : p ∈ addAll id [Key.str id] s.memberships := hp
    rw [mem_addAll] at hp2
    show p.1 ∈ s.sockets ++ [id]
    rcases hp2 with h1 | ⟨h1, _⟩
    · exact List.mem_append_left _ (hconn p h1)
    · rw [h1]; simp
  · exact nodup_addAll hnm
  · show (s.sockets ++ [id]).Nodup
    exact List.Nodup.append hns (List.nodup_singleton _) (by
      intro a ha hb
      have : a = id := by simpa using hb
      exact hid (this ▸ ha))

theorem inv_join {s : State} {id : SocketId} (room : JSVal) (h : Inv s)
    (hid : id ∈ s.sockets) : Inv (s.join id room) := by
  obtain ⟨hown, hconn, hnm, hns⟩ := h
  refine ⟨?_, ?_, ?_, hns⟩
  · intro x hx
    show (x, Key.str x) ∈ addAll id room.rooms s.memberships
    rw [mem_addAll]
    exact Or.inl (hown x hx)
  · intro p hp
    have hp2 : p ∈ addAll id room.rooms s.memberships := hp
    rw [mem_addAll] at hp2
    show p.1 ∈ s.sockets
    rcases hp2 with h1 | ⟨h1, _⟩
    · exact hconn p h1
    · rw [h1]; exact hid
  · exact nodup_addAll hnm

theorem inv_userSet {s : State} (id : SocketId) (v : JSVal) (h : Inv s) :
    Inv (s.userSet id v) :=
  inv_of_eq rfl rfl h

theorem inv_userDelete {s : State} (id : SocketId) (h : Inv s) : Inv (s.userDelete id) :=
  inv_of_eq rfl rfl h

theorem inv_leave {s : State} {id : SocketId} {room : Key} (h : Inv s)
    (hroom : room ≠ Key.str id) : Inv (s.leave id room) := by
  obtain ⟨hown, hconn, hnm, hns⟩ := h
  refine ⟨?_, ?_, hnm.filter _, hns⟩
  · intro x hx
    show (x, Key.str x) ∈ s.memberships.filter (fun p => p ≠ (id, room))
    rw [List.mem_filter]
    refine ⟨hown x hx, ?_⟩
    simp only [ne_eq, decide_eq_true_eq]
    intro e
    have e1 : x = id := congrArg Prod.fst e
    have e2 : Key.str x = room := congrArg Prod.snd e
    exact hroom (by rw [← e2, e1])
  · intro p hp
    have hp2 : p ∈ s.memberships.filter (fun p => p ≠ (id, room)) := hp
    exact hconn p (List.mem_filter.1 hp2).1

theorem inv_cleanup {s : State} (id : SocketId) (h : Inv s) : Inv (s.cleanup id) := by
  obtain ⟨hown, hconn, hnm, hns⟩ := h
  refine ⟨?_, ?_, hnm.filter _, hns.filter _⟩
  · intro x hx
    have hx2 : x ∈ s.sockets.filter (fun x => x ≠ id) := hx
    obtain ⟨hx3, hx4⟩ := List.mem_filter.1 hx2
    show (x, Key.str x) ∈ s.memberships.filter (fun p => p.1 ≠ id)
    exact List.mem_filter.2 ⟨hown x hx3, hx4⟩
  · intro p hp
    have hp2 : p ∈ s.memberships.filter (fun p => p.1 ≠ id) := hp
    obtain ⟨hp3, hp4⟩ := List.mem_filter.1 hp2
    show p.1 ∈ s.sockets.filter (fun x => x ≠ id)
    exact List.mem_filter.2 ⟨hconn p hp3, hp4⟩

theorem inv_disconnect {s : State} (id : SocketId) (h : Inv s) : Inv (disconnect s id).1 := by
  unfold disconnect onDisconnecting
  exact inv_cleanup id (inv_leave (inv_userDelete id h) (by simp))

theorem onJoin_object (s : State) (socket : SocketId) (f : Fields) :
    onJoin s socket (.object f) =
      .ok ((s.userSet socket f.username).join socket f.roomId,
        (getAllConnectedClients ((s.userSet socket f.username).join socket f.roomId) f.roomId).flatMap
          (fun c => (((s.userSet socket f.username).join socket f.roomId).ioTo
            (.key (.str c.1))).map
            (fun r => (r, Event.joined
              (getAllConnectedClients ((s.userSet socket f.username).join socket f.roomId) f.roomId)
              f.username socket)))) := rfl

theorem inv_step {s t : State} {a : Action} {out : List Delivery} (h : Inv s)
    (hstep : step s a = some (t, out)) : Inv t := by
  cases a with
  | connect id =>
    simp only [step] at hstep
    split at hstep
    · cases hstep
    · rename_i hid
      cases hstep
      exact inv_connect h hid
  | join id p =>
    simp only [step] at hstep
    split at hstep
    · rename_i hid
      cases p with
      | nullish => simp [onJoin, Except.toOption] at hstep
      | object f =>
        rw [onJoin_object] at hstep
        simp only [Except.toOption, Option.some.injEq, Prod.mk.injEq] at hstep
        rw [← hstep.1]
        exact inv_join _ (inv_userSet _ _ h) hid
    · cases hstep
  | codeChange id p =>
    simp only [step] at hstep
    split at hstep
    · cases p with
      | nullish => simp [onCodeChange, Except.toOption] at hstep
      | object f =>
        simp only [onCodeChange] at hstep
        split at hstep <;>
          simp only [Except.toOption, Option.some.injEq, Prod.mk.injEq] at hstep <;>
          (rw [← hstep.1]; exact h)
    · cases hstep
  | syncCode id p =>
    simp only [step] at hstep
    split at hstep
    · cases p with
      | nullish => simp [onSyncCode, Except.toOption] at hstep
      | object f =>
        simp only [onSyncCode] at hstep
        split at hstep <;>
          simp only [Except.toOption, Option.some.injEq, Prod.mk.injEq] at hstep <;>
          (rw [← hstep.1]; exact h)
    · cases hstep
  | disconnect id =>
    simp only [step] at hstep
    split at hstep
    · simp only [Option.some.injEq] at hstep
      have := inv_disconnect id h
      rw [hstep] at this
      exact this
    · cases hstep

theorem inv_run {s t : State} {acts : List Action} (h : Inv s)
    (hrun : run s acts = some t) : Inv t := by
  induction acts generalizing s with
  | nil =>
    simp only [run, Option.some.injEq] at hrun
    rw [← hrun]; exact h
  | cons a rest ih =>
    simp only [run] at hrun
    split at hrun
    · cases hrun
    · rename_i r hr
      exact ih (@inv_step s r.1 a r.2 h hr) hrun

theorem inv_of_reachable {s : State} (h : Reachable s) : Inv s := by
  obtain ⟨acts, hacts⟩ := h
  exact inv_run inv_init hacts

/-! ## The registry and the directory -/

theorem lookup_cons_eq (x k : SocketId) (w : JSVal) (rest : List (SocketId × JSVal)) :
    List.lookup x ((k, w) :: rest) = if x = k then some w else List.lookup x rest := by
  by_cases h : x = k
  · subst h
    simp [List.lookup]
  · have hb : (x == k) = false := by simpa using h
    simp [List.lookup, hb, h]

theorem lookup_mapSet (id x : SocketId) (v : JSVal) (l : List (SocketId × JSVal)) :
    (mapSet id v l).lookup x = if x = id then some v else l.lookup x := by
  induction l with
  | nil =>
    rw [mapSet, lookup_cons_eq]
  | cons p rest ih =>
    obtain ⟨k, w⟩ := p
    rw [mapSet]
    by_cases hk : k = id
    · rw [if_pos hk, lookup_cons_eq, lookup_cons_eq, hk]
      by_cases h : x = id
      · rw [if_pos h, if_pos h]
      · rw [if_neg h, if_neg h, if_neg h]
    · rw [if_neg hk, lookup_cons_eq, lookup_cons_eq, ih]
      by_cases h : x = k
      · have h2 : ¬ x = id := fun e => hk (h ▸ e)
        rw [if_pos h, if_neg h2, if_pos h]
      · rw [if_neg h, if_neg h]

theorem lookup_filter_ne (id x : SocketId) (l : List (SocketId × JSVal)) :
    (l.filter (fun p => p.1 ≠ id)).lookup x = if x = id then none else l.lookup x := by
  induction l with
  | nil =>
    by_cases h : x = id
    · rw [if_pos h]; rfl
    · rw [if_neg h]; rfl
  | cons p rest ih =>
    obtain ⟨k, w⟩ := p
    by_cases hk : k = id
    · have hf : List.filter (fun p => decide (p.1 ≠ id)) ((k, w) :: rest) =
          List.filter (fun p => decide (p.1 ≠ id)) rest := by
        rw [List.filter_cons]; simp [hk]
      rw [hf, ih, lookup_cons_eq, hk]
      by_cases h : x = id
      · rw [if_pos h, if_pos h]
      · rw [if_neg h, if_neg h, if_neg h]
    · have hf : List.filter (fun p => decide (p.1 ≠ id)) ((k, w) :: rest) =
          (k, w) :: List.filter (fun p => decide (p.1 ≠ id)) rest := by
        rw [List.filter_cons]; simp [hk]
      rw [hf, lookup_cons_eq, lookup_cons_eq, ih]
      by_cases h : x = k
      · have h2 : ¬ x = id := fun e => hk (h ▸ e)
        rw [if_pos h, if_neg h2, if_pos h]
      · rw [if_neg h, if_neg h]

theorem lookup_userSet (s : State) (id x : SocketId) (v : JSVal) :
    (s.userSet id v).lookup x = if x = id then some v else s.lookup x :=
  lookup_mapSet id x v s.userSocketMap

theorem userGet_userSet (s : State) (id x : SocketId) (v : JSVal) :
    (s.userSet id v).userGet x = if x = id then v else s.userGet x := by
  unfold State.userGet
  rw [lookup_userSet]
  by_cases h : x = id
  · simp [h]
  · simp [h]

theorem rooms_key (r : Key) (h : r.isArray = false) : (JSVal.key r).rooms = [r] := by
  cases r <;> first | rfl | simp [Key.isArray] at h

theorem toKey_isArray (e : Elem) : e.toKey.isArray = false := by
  cases e <;> rfl

theorem not_isArray_of_mem_rooms_key {n : Nat} {elems : List Elem} {k : Key}
    (h : k ∈ (JSVal.key (.arr n elems)).rooms) : k.isArray = false := by
  obtain ⟨e, _, rfl⟩ := List.mem_map.1 h
  exact toKey_isArray e

theorem roomMembers_addAll (c : SocketId) (rooms : List Key) (ms : List (SocketId × Key))
    (q : Key) :
    ((addAll c rooms ms).filter (fun p => p.2 = q)).map Prod.fst =
      if q ∈ rooms ∧ (c, q) ∉ ms then (ms.filter (fun p => p.2 = q)).map Prod.fst ++ [c]
      else (ms.filter (fun p => p.2 = q)).map Prod.fst := by
  induction rooms generalizing ms with
  | nil => simp [addAll]
  | cons room rest ih =>
    rw [addAll, ih]
    by_cases hm : (c, room) ∈ ms
    · rw [if_pos hm]
      by_cases hq : q = room
      · subst hq
        simp [hm]
      · simp [hq]
    · rw [if_neg hm]
      by_cases hq : q = room
      · subst hq
        simp [hm, List.filter_append, List.filter]
      · have hq2 : ¬ room = q := fun e => hq e.symm
        simp [hq, hq2, List.filter_append, List.filter]

theorem roomMembers_join (s : State) (c : SocketId) (v : JSVal) (q : Key) :
    (s.join c v).roomMembers q =
      if q ∈ v.rooms ∧ c ∉ s.roomMembers q then s.roomMembers q ++ [c]
      else s.roomMembers q := by
  have h := roomMembers_addAll c v.rooms s.memberships q
  have hiff : c ∉ s.roomMembers q ↔ (c, q) ∉ s.memberships := not_congr mem_roomMembers
  unfold State.join State.roomMembers at *
  simp only [hiff]
  exact h

theorem roomMembers_join_key (s : State) (c : SocketId) (r q : Key)
    (hr : r.isArray = false) :
    (s.join c (.key r)).roomMembers q =
      if q = r ∧ c ∉ s.roomMembers r then s.roomMembers r ++ [c] else s.roomMembers q := by
  rw [roomMembers_join, rooms_key r hr]
  by_cases hq : q = r
  · subst hq; simp
  · simp [hq]

theorem mem_roomMembers_join {s : State} {c x : SocketId} {v : JSVal} {q : Key}
    (h : x ∈ s.roomMembers q) : x ∈ (s.join c v).roomMembers q := by
  rw [mem_roomMembers] at h ⊢
  show (x, q) ∈ addAll c v.rooms s.memberships
  rw [mem_addAll]
  exact Or.inl h

theorem mem_roomMembers_join_self {s : State} {c : SocketId} {v : JSVal} {q : Key}
    (h : q ∈ v.rooms) : c ∈ (s.join c v).roomMembers q := by
  rw [mem_roomMembers]
  show (c, q) ∈ addAll c v.rooms s.memberships
  rw [mem_addAll]
  exact Or.inr ⟨rfl, h⟩

theorem mem_ioTo_str {s : State} {x m : SocketId} :
    x ∈ s.ioTo (.key (.str m)) ↔ (x, Key.str m) ∈ s.memberships ∧ x ∈ s.sockets := by
  unfold State.ioTo
  simp only [JSVal.rooms]
  rw [mem_apply_of_ne_nil (by simp)]
  simp

theorem ioTo_str_private {s : State} {m : SocketId} (h : s.roomMembers (.str m) = [m])
    (hm : m ∈ s.sockets) : s.ioTo (.key (.str m)) = [m] := by
  unfold State.ioTo State.apply
  simp [JSVal.rooms, State.visitRooms, h, State.visit, State.computeExceptSids, hm]

/-! ## JOIN -/

theorem joined_recipients (t : State) (l : List SocketId) (g : SocketId → JSVal) (e : Event)
    (h : ∀ m ∈ l, t.ioTo (.key (.str m)) = [m]) :
    ((l.map (fun m => (m, g m))).flatMap
      (fun c => (t.ioTo (.key (.str c.1))).map (fun r => (r, e)))).map Prod.fst = l := by
  induction l with
  | nil => rfl
  | cons a rest ih =>
    rw [List.map_cons, List.flatMap_cons, List.map_append,
      ih (fun m hm => h m (List.mem_cons_of_mem _ hm)), h a (List.mem_cons_self _ _)]
    rfl

theorem getAllConnectedClients_key (s : State) (r : Key) :
    getAllConnectedClients s (.key r) = (s.roomMembers r).map (fun m => (m, s.userGet m)) := by
  unfold getAllConnectedClients State.roomsGet
  by_cases h : s.roomMembers r = []
  · simp [h]
  · simp [h]

theorem onJoin_key (s : State) (c : SocketId) (r : Key) (u : JSVal) :
    onJoin s c (joinPayload (.key r) u) =
      .ok ((s.userSet c u).join c (.key r),
        (((s.userSet c u).join c (.key r)).roomMembers r |>.map
            (fun m => (m, ((s.userSet c u).join c (.key r)).userGet m))).flatMap
          (fun p => (((s.userSet c u).join c (.key r)).ioTo (.key (.str p.1))).map
            (fun x => (x, Event.joined
              ((((s.userSet c u).join c (.key r)).roomMembers r).map
                (fun m => (m, ((s.userSet c u).join c (.key r)).userGet m))) u c)))) := by
  rw [joinPayload, onJoin_object, getAllConnectedClients_key]

theorem lookup_join_userSet (s : State) (c x : SocketId) (room : JSVal) (u : JSVal) :
    ((s.userSet c u).join c room).lookup x = if x = c then some u else s.lookup x :=
  lookup_userSet s c x u

theorem userGet_join_userSet (s : State) (c x : SocketId) (room : JSVal) (u : JSVal) :
    ((s.userSet c u).join c room).userGet x = if x = c then u else s.userGet x :=
  userGet_userSet s c x u

theorem onJoin_arr (s : State) (c : SocketId) (ks : List Key) (u : JSVal) :
    onJoin s c (joinPayload (.arr ks) u) = .ok ((s.userSet c u).join c (.arr ks), []) := rfl

/-- What a JOIN with a room key does, in any consistent state. -/
theorem onJoin_key_spec (s : State) (c : SocketId) (r : Key) (u : JSVal)
    (hinv : Inv s) (hc : c ∈ s.sockets) :
    ∃ t out, onJoin s c (joinPayload (.key r) u) = .ok (t, out) ∧
      t = (s.userSet c u).join c (.key r) ∧ Inv t ∧
      t.lookup c = some u ∧ (∀ k ∈ (JSVal.key r).rooms, c ∈ t.roomMembers k) ∧
      (∀ d ∈ out, d.2 = Event.joined ((t.roomMembers r).map (fun m => (m, t.userGet m))) u c) ∧
      (∀ m ∈ t.roomMembers r, ∃ d ∈ out, d.1 = m) ∧
      (∀ d ∈ out, ∃ m ∈ t.roomMembers r, d.1 ∈ t.roomMembers (Key.str m)) ∧
      ((∀ m ∈ t.roomMembers r, t.roomMembers (Key.str m) = [m]) →
        out.map Prod.fst = t.roomMembers r) := by
  have hinvt : Inv ((s.userSet c u).join c (.key r)) := inv_join _ (inv_userSet _ _ hinv) hc
  refine ⟨_, _, onJoin_key s c r u, rfl, hinvt, ?_, ?_, ?_, ?_, ?_, ?_⟩
  · rw [lookup_join_userSet]; simp
  · intro k hk
    exact mem_roomMembers_join_self hk
  · intro d hd
    obtain ⟨p, _, hp2⟩ := List.mem_flatMap.1 hd
    obtain ⟨x, _, rfl⟩ := List.mem_map.1 hp2
    rfl
  · intro m hm
    have hm1 : m ∈ ((s.userSet c u).join c (.key r)).sockets :=
      hinvt.2.1 (m, r) (mem_roomMembers.1 hm)
    have hm2 := hinvt.1 m hm1
    exact ⟨_, List.mem_flatMap.2 ⟨(m, _), List.mem_map.2 ⟨m, hm, rfl⟩,
      List.mem_map.2 ⟨m, mem_ioTo_str.2 ⟨hm2, hm1⟩, rfl⟩⟩, rfl⟩
  · intro d hd
    obtain ⟨p, hp1, hp2⟩ := List.mem_flatMap.1 hd
    obtain ⟨m, hm, rfl⟩ := List.mem_map.1 hp1
    obtain ⟨x, hx, rfl⟩ := List.mem_map.1 hp2
    exact ⟨m, hm, mem_roomMembers.2 (mem_ioTo_str.1 hx).1⟩
  · intro hpriv
    apply joined_recipients
    intro m hm
    exact ioTo_str_private (hpriv m hm) (hinvt.2.1 (m, r) (mem_roomMembers.1 hm))

/-- C1, counterexample: connection X has joined the room named by the id of
connection A (a state reached by three transitions).  When A then joins room
r, the JOINED event addressed to A is delivered to X as well, although X is
not a member of r. -/
theorem joined_reaches_non_member :
    run State.init [.connect "A", .connect "X", .join "X" (joinPayload (jsStr "A") (jsStr "x"))]
      = some idRoomShared ∧
    onJoin idRoomShared "A" (joinPayload (jsStr "r") (jsStr "a")) =
      .ok (⟨["A", "X"],
            [("A", .str "A"), ("X", .str "X"), ("X", .str "A"), ("A", .str "r")],
            [("X", jsStr "x"), ("A", jsStr "a")]⟩,
          [("A", Event.joined [("A", jsStr "a")] (jsStr "a") "A"),
           ("X", Event.joined [("A", jsStr "a")] (jsStr "a") "A")]) ∧
    "X" ∉ State.roomMembers ⟨["A", "X"],
            [("A", .str "A"), ("X", .str "X"), ("X", .str "A"), ("A", .str "r")],
            [("X", jsStr "x"), ("A", jsStr "a")]⟩ (.str "r") := by
  decide

/-- C1 (amended): in every consistent state, a JOIN(roomId, username) from a
connected C binds C to username and adds C to the room roomId names (to every
room it lists when roomId is an array).  The member list is the one the handler
computes after the join, `getAllConnectedClients(roomId)`: the members of the
room keyed by roomId itself, each paired with its bound display name; when
roomId is not an array that room is the one C has just joined, so C is in the
list, and when roomId is an array of the payload the list is empty and no
JOINED is delivered.  JOINED is delivered to every connection of the list;
every such event carries the list, the joining username and the id of C.  A
JOINED event reaches only connections of the list and connections that are in
the room named by the id of one of them; when each listed connection is alone
in the room named by its id, the recipients are exactly the listed connections,
once each.  After JOIN(r, u1) from C and JOIN(r, u2) from a distinct C2 into a
previously empty room r (r not an array), the events of the second JOIN list
exactly (C, u1) and (C2, u2) and reach both. -/
theorem join_fanout (s : State) (c : SocketId) (roomId : JSVal) (u : JSVal)
    (hinv : Inv s) (hc : c ∈ s.sockets) :
    ∃ t out, onJoin s c (joinPayload roomId u) = .ok (t, out) ∧
      t.lookup c = some u ∧
      (∀ k ∈ roomId.rooms, c ∈ t.roomMembers k) ∧
      (∀ d ∈ out, d.2 = Event.joined (getAllConnectedClients t roomId) u c) ∧
      (∀ p ∈ getAllConnectedClients t roomId, ∃ d ∈ out, d.1 = p.1) ∧
      (∀ d ∈ out, ∃ p ∈ getAllConnectedClients t roomId,
        d.1 ∈ t.roomMembers (Key.str p.1)) ∧
      ((∀ p ∈ getAllConnectedClients t roomId, t.roomMembers (Key.str p.1) = [p.1]) →
        out.map Prod.fst = (getAllConnectedClients t roomId).map Prod.fst) ∧
      (∀ r, roomId = .key r →
        getAllConnectedClients t roomId = (t.roomMembers r).map (fun m => (m, t.userGet m)) ∧
        (r.isArray = false → c ∈ t.roomMembers r)) ∧
      (∀ ks, roomId = .arr ks → out = []) ∧
      (∀ r c2 u2, roomId = .key r → r.isArray = false →
        c2 ∈ s.sockets → c2 ≠ c → s.roomMembers r = [] →
        ∃ t2 out2, onJoin t c2 (joinPayload (.key r) u2) = .ok (t2, out2) ∧
          t2.roomMembers r = [c, c2] ∧
          (∀ d ∈ out2, d.2 = Event.joined [(c, u), (c2, u2)] u2 c2) ∧
          (∃ d ∈ out2, d.1 = c) ∧ (∃ d ∈ out2, d.1 = c2)) := by
  cases roomId with
  | arr ks =>
    refine ⟨_, _, onJoin_arr s c ks u, ?_, ?_, ?_, ?_, ?_, ?_, ?_, ?_, ?_⟩
    · rw [lookup_join_userSet]; simp
    · intro k hk
      exact mem_roomMembers_join_self hk
    · intro d hd; cases hd
    · intro p hp; cases hp
    · intro d hd; cases hd
    · intro _; rfl
    · intro r h; cases h
    · intro _ _; rfl
    · intro r c2 u2 h; cases h
  | key r =>
    obtain ⟨t, out, h1, ht, hinvt, h2, hjoin, h4, h5, h6, h7⟩ :=
      onJoin_key_spec s c r u hinv hc
    refine ⟨t, out, h1, h2, hjoin, ?_, ?_, ?_, ?_, ?_, ?_, ?_⟩
    · rw [getAllConnectedClients_key]; exact h4
    · rw [getAllConnectedClients_key]
      intro p hp
      obtain ⟨m, hm, rfl⟩ := List.mem_map.1 hp
      exact h5 m hm
    · rw [getAllConnectedClients_key]
      intro d hd
      obtain ⟨m, hm, hd2⟩ := h6 d hd
      exact ⟨(m, t.userGet m), List.mem_map.2 ⟨m, hm, rfl⟩, hd2⟩
    · rw [getAllConnectedClients_key]
      intro hpriv
      rw [List.map_map]
      have hid : (Prod.fst ∘ fun m => (m, t.userGet m)) = id := rfl
      rw [hid, List.map_id]
      apply h7
      intro m hm
      exact hpriv (m, t.userGet m) (List.mem_map.2 ⟨m, hm, rfl⟩)
    · intro r2 hr2
      cases hr2
      exact ⟨getAllConnectedClients_key t r,
        fun hr => hjoin r (by rw [rooms_key r hr]; exact List.mem_singleton_self r)⟩
    · intro ks h; cases h
    · intro r2 c2 u2 hr2 harr hc2 hne hempty
      cases hr2
      have hc2t : c2 ∈ t.sockets := by rw [ht]; exact hc2
      obtain ⟨t2, out2, k1, kt, _, _, _, k4, k5, _, _⟩ :=
        onJoin_key_spec t c2 r u2 hinvt hc2t
      have hr1 : t.roomMembers r = [c] := by
        rw [ht, roomMembers_join_key _ _ _ _ harr]
        have : (s.userSet c u).roomMembers r = [] := hempty
        simp [this]
      have hr2 : t2.roomMembers r = [c, c2] := by
        rw [kt, roomMembers_join_key _ _ _ _ harr]
        have : (t.userSet c2 u2).roomMembers r = [c] := hr1
        simp [this, hne]
      have hu1 : t2.userGet c = u := by
        rw [kt, userGet_join_userSet, if_neg (Ne.symm hne), ht, userGet_join_userSet,
          if_pos rfl]
      have hu2 : t2.userGet c2 = u2 := by
        rw [kt, userGet_join_userSet, if_pos rfl]
      refine ⟨t2, out2, k1, hr2, ?_, ?_, ?_⟩
      · intro d hd
        rw [k4 d hd, hr2]
        simp [hu1, hu2]
      · exact k5 c (by rw [hr2]; simp)
      · exact k5 c2 (by rw [hr2]; simp)

/-- C1, witness: connection A joins room r in the state of two connections,
then X joins it; and A sends a JOIN whose room id is the array of r and q. -/
theorem join_fanout_witness :
    Inv twoSockets ∧ "A" ∈ twoSockets.sockets ∧
    (∃ t out, onJoin twoSockets "A" (joinPayload (.key (.str "r")) (jsStr "a")) = .ok (t, out) ∧
      out.map Prod.fst = (getAllConnectedClients t (.key (.str "r"))).map Prod.fst ∧
      "A" ∈ t.roomMembers (.str "r") ∧
      ∃ t2 out2, onJoin t "X" (joinPayload (.key (.str "r")) (jsStr "x")) = .ok (t2, out2) ∧
        t2.roomMembers (.str "r") = ["A", "X"] ∧
        (∀ d ∈ out2, d.2 = Event.joined [("A", jsStr "a"), ("X", jsStr "x")] (jsStr "x") "X") ∧
        (∃ d ∈ out2, d.1 = "A") ∧ (∃ d ∈ out2, d.1 = "X")) ∧
    (∃ t, onJoin twoSockets "A" (joinPayload (.arr [.str "r", .str "q"]) (jsStr "a"))
        = .ok (t, []) ∧
      "A" ∈ t.roomMembers (.str "r") ∧ "A" ∈ t.roomMembers (.str "q")) := by
  refine ⟨by decide, by decide, ?_, ?_⟩
  · obtain ⟨t, out, h1, _, _, _, _, _, h7, h8, _, h10⟩ :=
      join_fanout twoSockets "A" (.key (.str "r")) (jsStr "a") (by decide) (by decide)
    have e : onJoin twoSockets "A" (joinPayload (.key (.str "r")) (jsStr "a")) =
        .ok (⟨["A", "X"], [("A", .str "A"), ("X", .str "X"), ("A", .str "r")],
          [("A", jsStr "a")]⟩, [("A", Event.joined [("A", jsStr "a")] (jsStr "a") "A")]) := by
      decide
    rw [e] at h1
    have e2 := Except.ok.inj h1
    have et := (Prod.mk.inj e2).1
    refine ⟨t, out, by rw [e, ← e2], ?_, (h8 _ rfl).2 rfl,
      h10 _ "X" (jsStr "x") rfl rfl (by decide) (by decide) (by decide)⟩
    apply h7
    rw [← et]
    decide
  · obtain ⟨t, out, h1, _, h3, _, _, _, _, _, h9, _⟩ :=
      join_fanout twoSockets "A" (.arr [.str "r", .str "q"]) (jsStr "a") (by decide) (by decide)
    have ho : out = [] := h9 _ rfl
    subst ho
    exact ⟨t, h1, h3 _ (by decide), h3 _ (by decide)⟩

/-! ## CODE_CHANGE, SYNC_CODE and the disconnection -/

theorem received_map (l : List SocketId) (e : Event) (h : l.Nodup) (x : SocketId) :
    received (l.map (fun r => (r, e))) x = if x ∈ l then 1 else 0 := by
  induction l with
  | nil => rfl
  | cons a rest ih =>
    obtain ⟨h1, h2⟩ := List.nodup_cons.1 h
    unfold received at ih ⊢
    rw [List.map_cons, List.filter_cons]
    by_cases hx : a = x
    · subst hx
      have hnot : a ∉ rest := h1
      have ih2 := ih h2
      rw [if_neg hnot] at ih2
      simp only [decide_True, if_true, List.length_cons, ih2, List.mem_cons, true_or]
    · have hx2 : ¬ x = a := fun e => hx e.symm
      simp only [hx, decide_False, Bool.false_eq_true, if_false, ih h2, List.mem_cons, hx2,
        false_or]

theorem mem_socketIn {s : State} {c x : SocketId} {v : JSVal} :
    x ∈ s.socketIn c v ↔
      x ∈ s.sockets ∧ x ∉ s.roomMembers (.str c) ∧
        ((v.rooms = [] ∧ ∃ r, x ∈ s.roomMembers r) ∨ ∃ r ∈ v.rooms, x ∈ s.roomMembers r) := by
  unfold State.socketIn
  by_cases h : v.rooms = []
  · rw [h, mem_apply_nil]
    simp [mem_roomMembers]
    tauto
  · rw [mem_apply_of_ne_nil h]
    simp [mem_roomMembers, h]
    tauto

/-- The connections a broadcast to `v` reaches in a consistent state, the
exception of the sender's room apart. -/
theorem reached_iff {s : State} (hinv : Inv s) (x : SocketId) (v : JSVal) :
    (x ∈ s.sockets ∧
        ((v.rooms = [] ∧ ∃ r, x ∈ s.roomMembers r) ∨ ∃ r ∈ v.rooms, x ∈ s.roomMembers r)) ↔
      ((v.rooms = [] ∧ x ∈ s.sockets) ∨ ∃ r ∈ v.rooms, x ∈ s.roomMembers r) := by
  constructor
  · rintro ⟨h1, ⟨h2, _⟩ | h2⟩
    · exact Or.inl ⟨h2, h1⟩
    · exact Or.inr h2
  · rintro (⟨h1, h2⟩ | ⟨r, h1, h2⟩)
    · exact ⟨h2, Or.inl ⟨h1, Key.str x, mem_roomMembers.2 (hinv.1 x h2)⟩⟩
    · exact ⟨hinv.2.1 (x, r) (mem_roomMembers.1 h2), Or.inr ⟨r, h1, h2⟩⟩

theorem mem_socketIn_inv {s : State} (hinv : Inv s) {c x : SocketId} {v : JSVal} :
    x ∈ s.socketIn c v ↔
      ((v.rooms = [] ∧ x ∈ s.sockets) ∨ ∃ r ∈ v.rooms, x ∈ s.roomMembers r) ∧
        x ∉ s.roomMembers (.str c) := by
  rw [mem_socketIn, ← reached_iff hinv x v]
  tauto

theorem reached_key {s : State} {x : SocketId} {r : Key} (hr : r.isArray = false) :
    (((JSVal.key r).rooms = [] ∧ x ∈ s.sockets) ∨
        ∃ q ∈ (JSVal.key r).rooms, x ∈ s.roomMembers q) ↔ x ∈ s.roomMembers r := by
  rw [rooms_key r hr]
  simp

theorem mem_ioTo {s : State} {x : SocketId} {target : JSVal} :
    x ∈ s.ioTo target ↔
      x ∈ s.sockets ∧
        ((target.rooms = [] ∧ ∃ r, x ∈ s.roomMembers r) ∨
          ∃ r ∈ target.rooms, x ∈ s.roomMembers r) := by
  unfold State.ioTo
  by_cases h : target.rooms = []
  · rw [h, mem_apply_nil]
    simp [mem_roomMembers]
    tauto
  · rw [mem_apply_of_ne_nil h]
    simp [mem_roomMembers, h]
    tauto

theorem onCodeChange_string (s : State) (c : SocketId) (roomId : JSVal) (code : String) :
    onCodeChange s c (codeChangePayload roomId (jsStr code)) =
      .ok (s, (s.socketIn c roomId).map (fun r => (r, Event.codeChange code))) := rfl

theorem onSyncCode_string (s : State) (c : SocketId) (target : JSVal) (code : String) :
    onSyncCode s c (syncCodePayload target (jsStr code)) =
      .ok (s, (s.ioTo target).map (fun r => (r, Event.codeChange code))) := rfl

/-- C2, counterexample: A and X are both members of room r, and X has also
joined the room named by the id of A (a state reached by five transitions).  A
CODE_CHANGE(r, "hi") from A is delivered to nobody: X, the other member of r,
does not receive it. -/
theorem code_change_misses_member :
    run State.init [.connect "A", .connect "X",
        .join "X" (joinPayload (jsStr "A") (jsStr "x")),
        .join "A" (joinPayload (jsStr "r") (jsStr "a")),
        .join "X" (joinPayload (jsStr "r") (jsStr "x"))] = some roomOfTwoShared ∧
    roomOfTwoShared.roomMembers (.str "r") = ["A", "X"] ∧
    onCodeChange roomOfTwoShared "A" (codeChangePayload (jsStr "r") (jsStr "hi")) =
      .ok (roomOfTwoShared, []) := by
  decide

/-- C2 (amended): in every consistent state, a CODE_CHANGE(roomId, code) with a
string code from connection C leaves the state unchanged and delivers only
CODE_CHANGE(code) events: exactly one to every connection that is in a room
roomId names (in each listed room when roomId is an array, every connection
when it is the empty array) and not in the room named by the id of C, and none
to anyone else.  When roomId is a room id r that is not an array, these are the
members of r outside the room named by the id of C; when moreover C alone is in
the room named by its id, every other member of r receives exactly one and the
non-members receive none.  C itself receives none. -/
theorem code_change_fanout (s : State) (c : SocketId) (roomId : JSVal) (code : String)
    (hinv : Inv s) (hc : c ∈ s.sockets) :
    ∃ out, onCodeChange s c (codeChangePayload roomId (jsStr code)) = .ok (s, out) ∧
      (∀ d ∈ out, d.2 = Event.codeChange code) ∧
      (∀ x, received out x =
        if ((roomId.rooms = [] ∧ x ∈ s.sockets) ∨ ∃ r ∈ roomId.rooms, x ∈ s.roomMembers r) ∧
            x ∉ s.roomMembers (.str c)
        then 1 else 0) ∧
      (∀ r, roomId = .key r → r.isArray = false →
        ∀ x, received out x =
          if x ∈ s.roomMembers r ∧ x ∉ s.roomMembers (.str c) then 1 else 0) ∧
      (∀ r, roomId = .key r → r.isArray = false → s.roomMembers (.str c) = [c] →
        ∀ x, received out x = if x ∈ s.roomMembers r ∧ x ≠ c then 1 else 0) ∧
      received out c = 0 := by
  have hrec : ∀ x, received ((s.socketIn c roomId).map (fun y => (y, Event.codeChange code))) x
      = if ((roomId.rooms = [] ∧ x ∈ s.sockets) ∨ ∃ r ∈ roomId.rooms, x ∈ s.roomMembers r) ∧
            x ∉ s.roomMembers (.str c)
        then 1 else 0 := by
    intro x
    rw [received_map (s.socketIn c roomId) (Event.codeChange code) (nodup_apply s _ _)]
    by_cases hx : x ∈ s.socketIn c roomId
    · rw [if_pos hx, if_pos ((mem_socketIn_inv hinv).1 hx)]
    · rw [if_neg hx, if_neg (fun h => hx ((mem_socketIn_inv hinv).2 h))]
  have hkey : ∀ r, roomId = .key r → r.isArray = false →
      ∀ x, received ((s.socketIn c roomId).map (fun y => (y, Event.codeChange code))) x =
        if x ∈ s.roomMembers r ∧ x ∉ s.roomMembers (.str c) then 1 else 0 := by
    intro r hr harr x
    rw [hrec x]
    subst hr
    simp only [reached_key harr]
  refine ⟨_, onCodeChange_string s c roomId code, ?_, hrec, hkey, ?_, ?_⟩
  · intro d hd
    obtain ⟨x, _, rfl⟩ := List.mem_map.1 hd
    rfl
  · intro r hr harr hpriv x
    rw [hkey r hr harr x, hpriv]
    simp
  · rw [hrec c]
    have : c ∈ s.roomMembers (.str c) := mem_roomMembers.2 (hinv.1 c hc)
    simp [this]

/-- C2, witness: A sends a code change to room r, whose members are A and X,
and a code change whose room id is the empty array. -/
theorem code_change_fanout_witness :
    Inv roomOfTwo ∧ "A" ∈ roomOfTwo.sockets ∧
    (∃ out, onCodeChange roomOfTwo "A" (codeChangePayload (jsStr "r") (jsStr "hi"))
        = .ok (roomOfTwo, out) ∧
      received out "X" = 1 ∧ received out "A" = 0) ∧
    (∃ out, onCodeChange roomOfTwo "A" (codeChangePayload (.arr []) (jsStr "hi"))
        = .ok (roomOfTwo, out) ∧
      received out "X" = 1 ∧ received out "A" = 0) := by
  refine ⟨by decide, by decide, ?_, ?_⟩
  · obtain ⟨out, h1, _, _, _, h5, h6⟩ :=
      code_change_fanout roomOfTwo "A" (jsStr "r") "hi" (by decide) (by decide)
    refine ⟨out, h1, ?_, h6⟩
    rw [h5 (.str "r") rfl rfl (by decide) "X"]
    decide
  · obtain ⟨out, h1, _, h3, _, _, h6⟩ :=
      code_change_fanout roomOfTwo "A" (.arr []) "hi" (by decide) (by decide)
    refine ⟨out, h1, ?_, h6⟩
    rw [h3 "X"]
    decide

/-- C3, counterexample: A and X are both members of room r.  A SYNC_CODE whose
target is the room id r is delivered to both connections: two packets, a
room-wide broadcast that reaches the sender too.  A SYNC_CODE whose target
names no room is delivered to nobody. -/
theorem sync_code_broadcasts :
    run State.init [.connect "A", .connect "X",
        .join "A" (joinPayload (jsStr "r") (jsStr "a")),
        .join "X" (joinPayload (jsStr "r") (jsStr "x"))] = some roomOfTwo ∧
    onSyncCode roomOfTwo "A" (syncCodePayload (jsStr "r") (jsStr "hi")) =
      .ok (roomOfTwo, [("A", Event.codeChange "hi"), ("X", Event.codeChange "hi")]) ∧
    onSyncCode roomOfTwo "A" (syncCodePayload (jsStr "nobody") (jsStr "hi")) =
      .ok (roomOfTwo, []) := by
  decide

/-- C3 (amended): in every consistent state, a SYNC_CODE with target `target`
and a string code leaves the state unchanged and delivers only
CODE_CHANGE(code) events: exactly one to every connection in a room named by
`target` (every connection when `target` is the empty array), none to anyone
else.  When `target` is the id of a connected socket that is alone in the room
named by its id, exactly one event is delivered, to that socket. -/
theorem sync_code_fanout (s : State) (c : SocketId) (target : JSVal) (code : String)
    (hinv : Inv s) :
    ∃ out, onSyncCode s c (syncCodePayload target (jsStr code)) = .ok (s, out) ∧
      (∀ d ∈ out, d.2 = Event.codeChange code) ∧
      (∀ x, received out x =
        if (target.rooms = [] ∧ x ∈ s.sockets) ∨ (∃ r ∈ target.rooms, x ∈ s.roomMembers r)
        then 1 else 0) ∧
      (∀ t, target = jsStr t → t ∈ s.sockets → s.roomMembers (.str t) = [t] →
        out = [(t, Event.codeChange code)]) := by
  refine ⟨_, onSyncCode_string s c target code, ?_, ?_, ?_⟩
  · intro d hd
    obtain ⟨x, _, rfl⟩ := List.mem_map.1 hd
    rfl
  · intro x
    rw [received_map (s.ioTo target) (Event.codeChange code) (nodup_apply s _ _)]
    have hiff : x ∈ s.ioTo target ↔
        ((target.rooms = [] ∧ x ∈ s.sockets) ∨ (∃ r ∈ target.rooms, x ∈ s.roomMembers r)) := by
      rw [mem_ioTo]
      constructor
      · rintro ⟨h1, ⟨h2, _⟩ | h2⟩
        · exact Or.inl ⟨h2, h1⟩
        · exact Or.inr h2
      · rintro (⟨h1, h2⟩ | ⟨r, h1, h2⟩)
        · exact ⟨h2, Or.inl ⟨h1, Key.str x, mem_roomMembers.2 (hinv.1 x h2)⟩⟩
        · exact ⟨hinv.2.1 (x, r) (mem_roomMembers.1 h2), Or.inr ⟨r, h1, h2⟩⟩
    by_cases hx : x ∈ s.ioTo target
    · rw [if_pos hx, if_pos (hiff.1 hx)]
    · rw [if_neg hx, if_neg (fun h => hx (hiff.2 h))]
  · intro t ht hts hpriv
    subst ht
    show (s.ioTo (.key (.str t))).map (fun r => (r, Event.codeChange code)) = _
    rw [ioTo_str_private hpriv hts]
    rfl

/-- C3, witness: A sends its buffer to X, which is alone in the room named by
its id. -/
theorem sync_code_fanout_witness :
    Inv roomOfTwo ∧
    onSyncCode roomOfTwo "A" (syncCodePayload (jsStr "X") (jsStr "hi")) =
      .ok (roomOfTwo, [("X", Event.codeChange "hi")]) := by
  refine ⟨by decide, ?_⟩
  obtain ⟨out, h1, _, _, h4⟩ := sync_code_fanout roomOfTwo "A" (jsStr "X") "hi" (by decide)
  rw [h1, h4 "X" rfl (by decide) (by decide)]

theorem received_append (l1 l2 : List Delivery) (x : SocketId) :
    received (l1 ++ l2) x = received l1 x + received l2 x := by
  unfold received
  rw [List.filter_append, List.length_append]

theorem received_flatMap (rooms : List Key) (g : Key → List Delivery) (p : Key → Bool)
    (x : SocketId) (h : ∀ r, received (g r) x = if p r then 1 else 0) :
    received (rooms.flatMap g) x = (rooms.filter p).length := by
  induction rooms with
  | nil => rfl
  | cons a rest ih =>
    rw [List.flatMap_cons, received_append, ih, h a, List.filter_cons]
    by_cases hp : p a = true
    · simp [hp, Nat.add_comm]
    · simp [hp]

theorem onDisconnecting_out (s : State) (c : SocketId) :
    (disconnect s c).2 = (s.socketRooms c).flatMap (fun roomId =>
      if roomId ≠ Key.str c then
        (s.socketIn c (.key roomId)).map (fun r => (r, Event.disconnected c (s.userGet c)))
      else []) := rfl

theorem disconnect_state (s : State) (c : SocketId) :
    (disconnect s c).1 = ((s.userDelete c).leave c Key.undefined).cleanup c := rfl

theorem mem_memberships_disconnect (s : State) (c : SocketId) (p : SocketId × Key) :
    p ∈ (disconnect s c).1.memberships ↔ p ∈ s.memberships ∧ p.1 ≠ c := by
  rw [disconnect_state]
  show p ∈ (s.memberships.filter (fun q => q ≠ (c, Key.undefined))).filter
    (fun q => q.1 ≠ c) ↔ _
  rw [List.mem_filter, List.mem_filter]
  constructor
  · rintro ⟨⟨h1, _⟩, h2⟩
    exact ⟨h1, by simpa using h2⟩
  · rintro ⟨h1, h2⟩
    refine ⟨⟨h1, ?_⟩, by simpa using h2⟩
    simp only [ne_eq, decide_eq_true_eq]
    intro e
    exact h2 (congrArg Prod.fst e)

theorem disconnect_notified {s : State} (hinv : Inv s) (c x : SocketId) :
    (∃ d ∈ (disconnect s c).2, d.1 = x) ↔
      x ∉ s.roomMembers (.str c) ∧
        ∃ k, k ≠ Key.str c ∧ c ∈ s.roomMembers k ∧
          (((JSVal.key k).rooms = [] ∧ x ∈ s.sockets) ∨
            ∃ r ∈ (JSVal.key k).rooms, x ∈ s.roomMembers r) := by
  rw [onDisconnecting_out]
  constructor
  · rintro ⟨d, hd, rfl⟩
    obtain ⟨k, hk, hd2⟩ := List.mem_flatMap.1 hd
    by_cases hne : k ≠ Key.str c
    · rw [if_pos hne] at hd2
      obtain ⟨y, hy, rfl⟩ := List.mem_map.1 hd2
      obtain ⟨h1, h2⟩ := (mem_socketIn_inv hinv).1 hy
      exact ⟨h2, k, hne, mem_roomMembers.2 (mem_socketRooms.1 hk), h1⟩
    · rw [if_neg hne] at hd2
      cases hd2
  · rintro ⟨h1, k, hne, h2, h3⟩
    refine ⟨(x, Event.disconnected c (s.userGet c)), ?_, rfl⟩
    refine List.mem_flatMap.2 ⟨k, mem_socketRooms.2 (mem_roomMembers.1 h2), ?_⟩
    rw [if_pos hne]
    exact List.mem_map.2 ⟨x, (mem_socketIn_inv hinv).2 ⟨h3, h1⟩, rfl⟩

theorem disconnect_count {s : State} (hinv : Inv s) (c x : SocketId) :
    received (disconnect s c).2 x =
      if x ∈ s.roomMembers (.str c) then 0
      else ((s.socketRooms c).filter
        (fun k => decide (k ≠ Key.str c ∧
          (((JSVal.key k).rooms = [] ∧ x ∈ s.sockets) ∨
            ∃ r ∈ (JSVal.key k).rooms, x ∈ s.roomMembers r)))).length := by
  rw [onDisconnecting_out]
  by_cases hx : x ∈ s.roomMembers (.str c)
  · rw [if_pos hx]
    rw [received_flatMap _ _ (fun _ => false) x]
    · simp
    · intro k
      by_cases hne : k ≠ Key.str c
      · rw [if_pos hne,
          received_map (s.socketIn c (.key k)) (Event.disconnected c (s.userGet c))
            (nodup_apply s _ _)]
        have : x ∉ s.socketIn c (.key k) := fun h => ((mem_socketIn_inv hinv).1 h).2 hx
        simp [this]
      · rw [if_neg hne]; rfl
  · rw [if_neg hx]
    apply received_flatMap
    intro k
    by_cases hne : k ≠ Key.str c
    · rw [if_pos hne,
        received_map (s.socketIn c (.key k)) (Event.disconnected c (s.userGet c))
          (nodup_apply s _ _)]
      by_cases hxr : x ∈ s.socketIn c (.key k)
      · have h1 := ((mem_socketIn_inv hinv).1 hxr).1
        rw [if_pos hxr, if_pos (decide_eq_true ⟨hne, h1⟩)]
      · have h1 : ¬ (k ≠ Key.str c ∧
            (((JSVal.key k).rooms = [] ∧ x ∈ s.sockets) ∨
              ∃ r ∈ (JSVal.key k).rooms, x ∈ s.roomMembers r)) :=
          fun h => hxr ((mem_socketIn_inv hinv).2 ⟨h.2, hx⟩)
        rw [if_neg hxr, if_neg (by simpa using h1)]
    · rw [if_neg hne]
      have h1 : ¬ (k ≠ Key.str c ∧
          (((JSVal.key k).rooms = [] ∧ x ∈ s.sockets) ∨
            ∃ r ∈ (JSVal.key k).rooms, x ∈ s.roomMembers r)) := fun h => hne h.1
      rw [if_neg (by simpa using h1)]
      rfl

/-- C4, counterexample: A and X are both members of room r, and X has also
joined the room named by the id of A.  When A disconnects, no DISCONNECTED
event is delivered: X, the other member of r, is not notified. -/
theorem disconnect_misses_member :
    run State.init [.connect "A", .connect "X",
        .join "X" (joinPayload (jsStr "A") (jsStr "x")),
        .join "A" (joinPayload (jsStr "r") (jsStr "a")),
        .join "X" (joinPayload (jsStr "r") (jsStr "x"))] = some roomOfTwoShared ∧
    "A" ∈ roomOfTwoShared.roomMembers (.str "r") ∧
    "X" ∈ roomOfTwoShared.roomMembers (.str "r") ∧
    (disconnect roomOfTwoShared "A").2 = [] := by
  decide

/-- An array that keys a room of the disconnecting connection is spread: A has
sent a JOIN whose room id is an array holding the array of r, X is a member of
r, and the disconnection of A notifies X although they share no room. -/
theorem disconnect_spreads_array_key :
    run State.init [.connect "A", .connect "X",
        .join "A" (joinPayload (.arr [.arr 0 [.str "r"]]) (jsStr "a")),
        .join "X" (joinPayload (jsStr "r") (jsStr "x"))] = some arrayKeyed ∧
    arrayKeyed.socketRooms "A" = [.str "A", .arr 0 [.str "r"]] ∧
    arrayKeyed.socketRooms "X" = [.str "X", .str "r"] ∧
    (disconnect arrayKeyed "A").2 = [("X", Event.disconnected "A" (jsStr "a"))] := by
  decide

/-- C4 (amended): in every consistent state, when connection C disconnects,
every delivered event is DISCONNECTED carrying the id of C and its bound
display name.  A connection in the room named by the id of C (C itself
included) receives none.  Any other connection receives one event for every
room key of C, the id of C apart, that reaches it: a key that is not an array
reaches the members of that room, and a key that is an array (C has sent a
JOIN whose room id was an array holding that array) reaches the members of the
rooms the array lists, every connection when the array is empty.  When no room
of C is keyed by an array, a connection outside the room named by the id of C
receives one event for every other room it shares with C; when moreover C
alone is in the room named by its id, the connections notified are exactly the
other members of the rooms C belongs to. -/
theorem disconnect_fanout (s : State) (c : SocketId) (hinv : Inv s) (hc : c ∈ s.sockets) :
    (∀ d ∈ (disconnect s c).2, d.2 = Event.disconnected c (s.userGet c)) ∧
    (∀ x, received (disconnect s c).2 x =
      if x ∈ s.roomMembers (.str c) then 0
      else ((s.socketRooms c).filter
        (fun k => decide (k ≠ Key.str c ∧
          (((JSVal.key k).rooms = [] ∧ x ∈ s.sockets) ∨
            ∃ r ∈ (JSVal.key k).rooms, x ∈ s.roomMembers r)))).length) ∧
    (∀ x, (∃ d ∈ (disconnect s c).2, d.1 = x) ↔
      x ∉ s.roomMembers (.str c) ∧
        ∃ k, k ≠ Key.str c ∧ c ∈ s.roomMembers k ∧
          (((JSVal.key k).rooms = [] ∧ x ∈ s.sockets) ∨
            ∃ r ∈ (JSVal.key k).rooms, x ∈ s.roomMembers r)) ∧
    ((∀ k ∈ s.socketRooms c, k.isArray = false) →
      (∀ x, received (disconnect s c).2 x =
        if x ∈ s.roomMembers (.str c) then 0
        else ((s.socketRooms c).filter
          (fun r => decide (r ≠ Key.str c ∧ x ∈ s.roomMembers r))).length) ∧
      (∀ x, (∃ d ∈ (disconnect s c).2, d.1 = x) ↔
        x ∉ s.roomMembers (.str c) ∧
          ∃ r, r ≠ Key.str c ∧ c ∈ s.roomMembers r ∧ x ∈ s.roomMembers r) ∧
      (s.roomMembers (.str c) = [c] →
        ∀ x, (∃ d ∈ (disconnect s c).2, d.1 = x) ↔
          x ≠ c ∧ ∃ r, c ∈ s.roomMembers r ∧ x ∈ s.roomMembers r)) ∧
    received (disconnect s c).2 c = 0 := by
  have hcc : c ∈ s.roomMembers (.str c) := mem_roomMembers.2 (hinv.1 c hc)
  refine ⟨?_, disconnect_count hinv c, disconnect_notified hinv c, ?_, ?_⟩
  · intro d hd
    rw [onDisconnecting_out] at hd
    obtain ⟨r, _, hd2⟩ := List.mem_flatMap.1 hd
    by_cases hne : r ≠ Key.str c
    · rw [if_pos hne] at hd2
      obtain ⟨y, _, rfl⟩ := List.mem_map.1 hd2
      rfl
    · rw [if_neg hne] at hd2
      cases hd2
  · intro harr
    have hmem : ∀ x, (∃ d ∈ (disconnect s c).2, d.1 = x) ↔
        x ∉ s.roomMembers (.str c) ∧
          ∃ r, r ≠ Key.str c ∧ c ∈ s.roomMembers r ∧ x ∈ s.roomMembers r := by
      intro x
      rw [disconnect_notified hinv c x]
      constructor
      · rintro ⟨h1, k, hne, h2, h3⟩
        have hk := harr k (mem_socketRooms.2 (mem_roomMembers.1 h2))
        exact ⟨h1, k, hne, h2, (reached_key hk).1 h3⟩
      · rintro ⟨h1, k, hne, h2, h3⟩
        have hk := harr k (mem_socketRooms.2 (mem_roomMembers.1 h2))
        exact ⟨h1, k, hne, h2, (reached_key hk).2 h3⟩
    refine ⟨?_, hmem, ?_⟩
    · intro x
      rw [disconnect_count hinv c x]
      by_cases hx : x ∈ s.roomMembers (.str c)
      · rw [if_pos hx, if_pos hx]
      · rw [if_neg hx, if_neg hx]
        congr 1
        apply List.filter_congr
        intro k hk
        exact decide_eq_decide.2 (and_congr Iff.rfl (reached_key (harr k hk)))
    · intro hpriv x
      rw [hmem x, hpriv]
      constructor
      · rintro ⟨h1, r, _, h2, h3⟩
        exact ⟨by simpa using h1, r, h2, h3⟩
      · rintro ⟨h1, r, h2, h3⟩
        refine ⟨by simpa using h1, r, ?_, h2, h3⟩
        intro e
        rw [e, hpriv] at h3
        exact h1 (by simpa using h3)
  · rw [disconnect_count hinv c c, if_pos hcc]

/-- C4, witness: A, a member of room r together with X, disconnects; and A
disconnects in the state where an array of r keys one of its rooms. -/
theorem disconnect_fanout_witness :
    Inv roomOfTwo ∧ "A" ∈ roomOfTwo.sockets ∧
    (∀ d ∈ (disconnect roomOfTwo "A").2, d.2 = Event.disconnected "A" (jsStr "a")) ∧
    received (disconnect roomOfTwo "A").2 "X" = 1 ∧
    received (disconnect roomOfTwo "A").2 "A" = 0 ∧
    ((∃ d ∈ (disconnect roomOfTwo "A").2, d.1 = "X") ↔
      "X" ≠ "A" ∧ ∃ r, "A" ∈ roomOfTwo.roomMembers r ∧ "X" ∈ roomOfTwo.roomMembers r) ∧
    Inv arrayKeyed ∧ "A" ∈ arrayKeyed.sockets ∧
    received (disconnect arrayKeyed "A").2 "X" = 1 :=
  have h := disconnect_fanout roomOfTwo "A" (by decide) (by decide)
  have k := disconnect_fanout arrayKeyed "A" (by decide) (by decide)
  ⟨by decide, by decide, h.1, by rw [h.2.1 "X"]; decide, h.2.2.2.2,
    (h.2.2.2.1 (by decide)).2.2 (by decide) "X",
    by decide, by decide, by rw [k.2.1 "X"]; decide⟩

/-- C5: after the DISCONNECT transition of connection C the registry has no
binding for C, C is a member of no room and is no longer connected, and the
bindings, the memberships and the connections of every other connection are
what they were. -/
theorem disconnect_clears (s : State) (c : SocketId) :
    (disconnect s c).1.lookup c = none ∧
    (∀ r, c ∉ (disconnect s c).1.roomMembers r) ∧
    c ∉ (disconnect s c).1.sockets ∧
    (∀ d, d ≠ c → (disconnect s c).1.lookup d = s.lookup d) ∧
    (∀ d r, d ≠ c → (d ∈ (disconnect s c).1.roomMembers r ↔ d ∈ s.roomMembers r)) ∧
    (∀ d, d ≠ c → (d ∈ (disconnect s c).1.sockets ↔ d ∈ s.sockets)) := by
  have hl : ∀ d, (disconnect s c).1.lookup d = if d = c then none else s.lookup d :=
    fun d => lookup_filter_ne c d s.userSocketMap
  have hs : ∀ d, d ∈ (disconnect s c).1.sockets ↔ d ∈ s.sockets ∧ d ≠ c := by
    intro d
    show d ∈ s.sockets.filter (fun x => x ≠ c) ↔ _
    rw [List.mem_filter]
    simp
  refine ⟨?_, ?_, ?_, ?_, ?_, ?_⟩
  · rw [hl, if_pos rfl]
  · intro r h
    exact ((mem_memberships_disconnect s c (c, r)).1 (mem_roomMembers.1 h)).2 rfl
  · intro h
    exact ((hs c).1 h).2 rfl
  · intro d hd
    rw [hl, if_neg hd]
  · intro d r hd
    rw [mem_roomMembers, mem_roomMembers, mem_memberships_disconnect]
    exact ⟨fun h => h.1, fun h => ⟨h, hd⟩⟩
  · intro d hd
    rw [hs]
    exact ⟨fun h => h.1, fun h => ⟨h, hd⟩⟩

/-! ## Payload validation -/

/-- C6: for every state, every sender and every payload whose `code` property
is not a string (a number, an object, null, an array, missing), the
CODE_CHANGE handler and the SYNC_CODE handler return normally, deliver nothing
and leave the state unchanged. -/
theorem non_string_code_dropped (s : State) (c : SocketId) (f : Fields)
    (h : ∀ v : String, f.code ≠ .key (.str v)) :
    onCodeChange s c (.object f) = .ok (s, []) ∧ onSyncCode s c (.object f) = .ok (s, []) := by
  have hn : f.code.asString = none := by
    cases hcode : f.code with
    | key k =>
      cases k with
      | str v => exact absurd hcode (h v)
      | undefined => rfl
      | null => rfl
      | bool b => rfl
      | num n => rfl
      | ref n => rfl
      | arr n elems => rfl
    | arr l => rfl
  simp only [onCodeChange, onSyncCode, hn, and_self]

/-- C6, witness: a number, an object, null, a missing property and an array as
`code`, in a room with two members. -/
theorem non_string_code_dropped_witness :
    (onCodeChange roomOfTwo "A" (codeChangePayload (jsStr "r") (.key (.num 5)))
        = .ok (roomOfTwo, []) ∧
      onSyncCode roomOfTwo "A" (syncCodePayload (jsStr "X") (.key (.num 5)))
        = .ok (roomOfTwo, [])) ∧
    (onCodeChange roomOfTwo "A" (codeChangePayload (jsStr "r") (.key (.ref 0)))
        = .ok (roomOfTwo, []) ∧
      onSyncCode roomOfTwo "A" (syncCodePayload (jsStr "X") (.key (.ref 0)))
        = .ok (roomOfTwo, [])) ∧
    (onCodeChange roomOfTwo "A" (codeChangePayload (jsStr "r") (.key .null))
        = .ok (roomOfTwo, []) ∧
      onSyncCode roomOfTwo "A" (syncCodePayload (jsStr "X") (.key .null))
        = .ok (roomOfTwo, [])) ∧
    (onCodeChange roomOfTwo "A" (.object { roomId := jsStr "r" }) = .ok (roomOfTwo, []) ∧
      onSyncCode roomOfTwo "A" (.object { socketId := jsStr "X" }) = .ok (roomOfTwo, [])) :=
  ⟨⟨(non_string_code_dropped roomOfTwo "A" _ (by intro v; simp [codeChangePayload])).1,
    (non_string_code_dropped roomOfTwo "A" _ (by intro v; simp [syncCodePayload])).2⟩,
   ⟨(non_string_code_dropped roomOfTwo "A" _ (by intro v; simp [codeChangePayload])).1,
    (non_string_code_dropped roomOfTwo "A" _ (by intro v; simp [syncCodePayload])).2⟩,
   ⟨(non_string_code_dropped roomOfTwo "A" _ (by intro v; simp [codeChangePayload])).1,
    (non_string_code_dropped roomOfTwo "A" _ (by intro v; simp [syncCodePayload])).2⟩,
   ⟨(non_string_code_dropped roomOfTwo "A" _ (by intro v; simp)).1,
    (non_string_code_dropped roomOfTwo "A" _ (by intro v; simp)).2⟩⟩

/-- C7, the code at the failing inputs: a JOIN without payload makes the
handler throw a TypeError (as do CODE_CHANGE and SYNC_CODE without payload); a
JOIN whose payload lacks `username` is not dropped: it binds the sender to
`undefined`, adds it to the room and delivers JOINED; a JOIN whose payload
lacks `roomId` adds the sender to the room keyed `undefined`. -/
theorem join_not_validated :
    onJoin twoSockets "A" .nullish = .error .typeError ∧
    onCodeChange twoSockets "A" .nullish = .error .typeError ∧
    onSyncCode twoSockets "A" .nullish = .error .typeError ∧
    onJoin twoSockets "A" (.object { roomId := jsStr "r" }) =
      .ok (⟨["A", "X"], [("A", .str "A"), ("X", .str "X"), ("A", .str "r")],
            [("A", .key .undefined)]⟩,
          [("A", Event.joined [("A", .key .undefined)] (.key .undefined) "A")]) ∧
    onJoin twoSockets "A" (.object { username := jsStr "a" }) =
      .ok (⟨["A", "X"], [("A", .str "A"), ("X", .str "X"), ("A", .undefined)],
            [("A", jsStr "a")]⟩,
          [("A", Event.joined [("A", jsStr "a")] (jsStr "a") "A")]) := by
  decide

/-! ## Re-JOIN -/

theorem nodup_roomMembers {s : State} (h : s.memberships.Nodup) (r : Key) :
    (s.roomMembers r).Nodup := by
  unfold State.roomMembers
  apply List.Nodup.map_on
  · intro x hx y hy hxy
    have h1 : x.2 = r := by simpa using (List.mem_filter.1 hx).2
    have h2 : y.2 = r := by simpa using (List.mem_filter.1 hy).2
    exact Prod.ext hxy (h1.trans h2.symm)
  · exact h.filter _

theorem disconnect_events (s : State) (c : SocketId) :
    ∀ d ∈ (disconnect s c).2, d.2 = Event.disconnected c (s.userGet c) := by
  intro d hd
  rw [onDisconnecting_out] at hd
  obtain ⟨r, _, hd2⟩ := List.mem_flatMap.1 hd
  by_cases hne : r ≠ Key.str c
  · rw [if_pos hne] at hd2
    obtain ⟨y, _, rfl⟩ := List.mem_map.1 hd2
    rfl
  · rw [if_neg hne] at hd2
    cases hd2

theorem step_keeps_binding {s t : State} {a : Action} {out : List Delivery} {c : SocketId}
    (hstep : step s a = some (t, out)) (ha : a.rebinds c = false) :
    t.lookup c = s.lookup c ∧ ∀ r, c ∈ s.roomMembers r → c ∈ t.roomMembers r := by
  cases a with
  | connect id =>
    simp only [step] at hstep
    split at hstep
    · cases hstep
    · cases hstep
      refine ⟨rfl, ?_⟩
      intro r hr
      rw [mem_roomMembers] at hr ⊢
      show (c, r) ∈ addAll id [Key.str id] s.memberships
      rw [mem_addAll]
      exact Or.inl hr
  | join id p =>
    have hid : id ≠ c := by simpa [Action.rebinds] using ha
    simp only [step] at hstep
    split at hstep
    · cases p with
      | nullish => simp [onJoin, Except.toOption] at hstep
      | object f =>
        rw [onJoin_object] at hstep
        simp only [Except.toOption, Option.some.injEq, Prod.mk.injEq] at hstep
        rw [← hstep.1]
        refine ⟨?_, ?_⟩
        · rw [lookup_join_userSet, if_neg (Ne.symm hid)]
        · intro r hr
          rw [mem_roomMembers] at hr ⊢
          show (c, r) ∈ addAll id f.roomId.rooms s.memberships
          rw [mem_addAll]
          exact Or.inl hr
    · cases hstep
  | codeChange id p =>
    simp only [step] at hstep
    split at hstep
    · cases p with
      | nullish => simp [onCodeChange, Except.toOption] at hstep
      | object f =>
        simp only [onCodeChange] at hstep
        split at hstep <;>
          simp only [Except.toOption, Option.some.injEq, Prod.mk.injEq] at hstep <;>
          (rw [← hstep.1]; exact ⟨rfl, fun _ h => h⟩)
    · cases hstep
  | syncCode id p =>
    simp only [step] at hstep
    split at hstep
    · cases p with
      | nullish => simp [onSyncCode, Except.toOption] at hstep
      | object f =>
        simp only [onSyncCode] at hstep
        split at hstep <;>
          simp only [Except.toOption, Option.some.injEq, Prod.mk.injEq] at hstep <;>
          (rw [← hstep.1]; exact ⟨rfl, fun _ h => h⟩)
    · cases hstep
  | disconnect id =>
    have hid : id ≠ c := by simpa [Action.rebinds] using ha
    simp only [step] at hstep
    split at hstep
    · simp only [Option.some.injEq] at hstep
      have ht : t = (disconnect s id).1 := by rw [hstep]
      rw [ht]
      refine ⟨?_, ?_⟩
      · exact (lookup_filter_ne id c s.userSocketMap).trans (if_neg (Ne.symm hid))
      · intro r hr
        rw [mem_roomMembers] at hr ⊢
        rw [mem_memberships_disconnect]
        exact ⟨hr, Ne.symm hid⟩
    · cases hstep

theorem run_keeps_binding {s t : State} {acts : List Action} {c : SocketId}
    (hrun : run s acts = some t) (ha : ∀ a ∈ acts, a.rebinds c = false) :
    t.lookup c = s.lookup c ∧ ∀ r, c ∈ s.roomMembers r → c ∈ t.roomMembers r := by
  induction acts generalizing s with
  | nil =>
    simp only [run, Option.some.injEq] at hrun
    rw [← hrun]
    exact ⟨rfl, fun _ h => h⟩
  | cons a rest ih =>
    simp only [run] at hrun
    split at hrun
    · cases hrun
    · rename_i x hx
      obtain ⟨h1, h2⟩ := @step_keeps_binding s x.1 a x.2 c hx (ha a (List.mem_cons_self _ _))
      obtain ⟨h3, h4⟩ := ih hrun (fun b hb => ha b (List.mem_cons_of_mem _ hb))
      exact ⟨h3.trans h1, fun r hr => h4 r (h2 r hr)⟩

theorem onJoin_names_other {s t : State} {d c : SocketId} {p : Payload}
    {out : List Delivery} (hd : d ≠ c) (h : onJoin s d p = .ok (t, out)) :
    ∀ e ∈ out, ∀ clients un sid, e.2 = Event.joined clients un sid →
      ∀ v, (c, v) ∈ clients → v = s.userGet c := by
  cases p with
  | nullish => simp [onJoin] at h
  | object f =>
    rw [onJoin_object] at h
    have h2 := Prod.mk.inj (Except.ok.inj h)
    intro e he clients un sid hev v hv
    rw [← h2.2] at he
    obtain ⟨q, _, hq2⟩ := List.mem_flatMap.1 he
    obtain ⟨x, _, rfl⟩ := List.mem_map.1 hq2
    simp only [Event.joined.injEq] at hev
    rw [← hev.1] at hv
    cases hroom : f.roomId with
    | arr l =>
      rw [hroom] at hv
      simp [getAllConnectedClients, State.roomsGet] at hv
    | key k =>
      rw [hroom, getAllConnectedClients_key] at hv
      obtain ⟨m, _, hm⟩ := List.mem_map.1 hv
      have hm1 : m = c := congrArg Prod.fst hm
      have hm2 := congrArg Prod.snd hm
      simp only at hm2
      rw [← hm2, hm1, userGet_join_userSet, if_neg (Ne.symm hd)]

theorem userGet_of_lookup {s : State} {c : SocketId} {u : JSVal} (h : s.lookup c = some u) :
    s.userGet c = u := by
  unfold State.userGet
  rw [h]; rfl

theorem clients_of_member {t : State} {c : SocketId} {r : Key} {u : JSVal}
    (hinv : Inv t) (hmem : c ∈ t.roomMembers r) (hu : t.userGet c = u) :
    (((t.roomMembers r).map (fun m => (m, t.userGet m))).map Prod.fst).count c = 1 ∧
    ∀ v, (c, v) ∈ (t.roomMembers r).map (fun m => (m, t.userGet m)) ↔ v = u := by
  constructor
  · rw [List.map_map]
    have : (Prod.fst ∘ fun m => (m, t.userGet m)) = id := rfl
    rw [this, List.map_id]
    exact List.count_eq_one_of_mem (nodup_roomMembers hinv.2.2.1 r) hmem
  · intro v
    constructor
    · intro hv
      obtain ⟨m, _, hm⟩ := List.mem_map.1 hv
      have hm1 : m = c := congrArg Prod.fst hm
      have hm2 := congrArg Prod.snd hm
      simp only at hm2
      rw [← hm2, hm1, hu]
    · intro hv
      exact List.mem_map.2 ⟨c, hmem, by rw [hu, hv]⟩

/-- C8: in every consistent state in which connection C is a member of room
r, a further JOIN(r, u2) from C leaves the member list of r as it was, binds C
to u2 and delivers JOINED to C; every JOINED event of this JOIN lists C exactly
once, paired with u2.  After any later transitions other than a JOIN from C or
the disconnection of C, C is still bound to u2 and a member of r; every JOINED
event of a later JOIN by another connection that lists C pairs it with u2, a
later JOIN into r by another connection reaches C and lists C exactly once with
u2, and every DISCONNECTED event of the disconnection of C carries u2. -/
theorem rejoin_updates_name (s : State) (c : SocketId) (r : Key) (u2 : JSVal)
    (hinv : Inv s) (hmem : c ∈ s.roomMembers r) :
    ∃ t out, onJoin s c (joinPayload (.key r) u2) = .ok (t, out) ∧
      t.roomMembers r = s.roomMembers r ∧
      t.lookup c = some u2 ∧
      (∃ d ∈ out, d.1 = c) ∧
      (∀ d ∈ out, ∃ clients, d.2 = Event.joined clients u2 c ∧
        (clients.map Prod.fst).count c = 1 ∧ ∀ v, (c, v) ∈ clients ↔ v = u2) ∧
      (∀ acts t2, (∀ a ∈ acts, a.rebinds c = false) → run t acts = some t2 →
        t2.lookup c = some u2 ∧ c ∈ t2.roomMembers r ∧
        (∀ d p t3 out3, d ≠ c → onJoin t2 d p = .ok (t3, out3) →
          ∀ e ∈ out3, ∀ clients un sid, e.2 = Event.joined clients un sid →
            ∀ v, (c, v) ∈ clients → v = u2) ∧
        (∀ d un, d ≠ c → d ∈ t2.sockets →
          ∃ t3 out3, onJoin t2 d (joinPayload (.key r) un) = .ok (t3, out3) ∧
            (∃ e ∈ out3, e.1 = c) ∧
            ∀ e ∈ out3, ∃ clients, e.2 = Event.joined clients un d ∧
              (clients.map Prod.fst).count c = 1 ∧ ∀ v, (c, v) ∈ clients ↔ v = u2) ∧
        (∀ e ∈ (disconnect t2 c).2, e.2 = Event.disconnected c u2)) := by
  have hc : c ∈ s.sockets := hinv.2.1 (c, r) (mem_roomMembers.1 hmem)
  obtain ⟨t, out, h1, ht, hinvt, hlook, _, hev, hdel, _, _⟩ :=
    onJoin_key_spec s c r u2 hinv hc
  have hsame : t.roomMembers r = s.roomMembers r := by
    rw [ht, roomMembers_join]
    have hm2 : c ∈ (s.userSet c u2).roomMembers r := hmem
    simp only [hm2, not_true_eq_false, and_false, if_false]
    rfl
  have hcm : c ∈ t.roomMembers r := by rw [hsame]; exact hmem
  refine ⟨t, out, h1, hsame, hlook, hdel c hcm, ?_, ?_⟩
  · intro d hd
    exact ⟨_, hev d hd, clients_of_member hinvt hcm (userGet_of_lookup hlook)⟩
  · intro acts t2 hacts hrun
    have hinv2 : Inv t2 := inv_run hinvt hrun
    obtain ⟨k1, k2⟩ := run_keeps_binding hrun hacts
    have hlook2 : t2.lookup c = some u2 := k1.trans hlook
    have hget2 : t2.userGet c = u2 := userGet_of_lookup hlook2
    refine ⟨hlook2, k2 r hcm, ?_, ?_, ?_⟩
    · intro d p t3 out3 hd hjoin e he clients un sid hevt v hv
      rw [onJoin_names_other hd hjoin e he clients un sid hevt v hv, hget2]
    · intro d un hd hds
      obtain ⟨t3, out3, j1, jt, jinv, _, _, jev, jdel, _, _⟩ :=
        onJoin_key_spec t2 d r un hinv2 hds
      have hc3 : c ∈ t3.roomMembers r := by
        rw [jt]
        exact mem_roomMembers_join (k2 r hcm)
      have hget3 : t3.userGet c = u2 := by
        rw [jt, userGet_join_userSet, if_neg (Ne.symm hd), hget2]
      refine ⟨t3, out3, j1, jdel c hc3, ?_⟩
      intro e he
      exact ⟨_, jev e he, clients_of_member jinv hc3 hget3⟩
    · intro e he
      rw [disconnect_events t2 c e he, hget2]

/-- C8, witness: A, bound to the name a in room r, joins r again under the
name b; then X joins r again and A disconnects. -/
theorem rejoin_updates_name_witness :
    Inv roomOfTwo ∧ "A" ∈ roomOfTwo.roomMembers (.str "r") ∧
    roomOfTwo.lookup "A" = some (jsStr "a") ∧
    ∃ t out, onJoin roomOfTwo "A" (joinPayload (jsStr "r") (jsStr "b")) = .ok (t, out) ∧
      t.roomMembers (.str "r") = ["A", "X"] ∧ t.lookup "A" = some (jsStr "b") ∧
      ∃ t2, run t [.join "X" (joinPayload (jsStr "r") (jsStr "y"))] = some t2 ∧
        t2.lookup "A" = some (jsStr "b") ∧
        (disconnect t2 "A").2 = [("X", Event.disconnected "A" (jsStr "b"))] := by
  refine ⟨by decide, by decide, by decide, ?_⟩
  obtain ⟨t, out, h1, h2, h3, _, _, h6⟩ :=
    rejoin_updates_name roomOfTwo "A" (.str "r") (jsStr "b") (by decide) (by decide)
  have e : onJoin roomOfTwo "A" (joinPayload (jsStr "r") (jsStr "b")) =
      .ok (⟨["A", "X"], [("A", .str "A"), ("X", .str "X"), ("A", .str "r"), ("X", .str "r")],
        [("A", jsStr "b"), ("X", jsStr "x")]⟩,
        [("A", Event.joined [("A", jsStr "b"), ("X", jsStr "x")] (jsStr "b") "A"),
         ("X", Event.joined [("A", jsStr "b"), ("X", jsStr "x")] (jsStr "b") "A")]) := by
    decide
  have h1b : onJoin roomOfTwo "A" (joinPayload (.key (.str "r")) (jsStr "b")) = .ok (t, out) := h1
  have et := (Prod.mk.inj (Except.ok.inj (e.symm.trans h1b))).1
  refine ⟨t, out, h1, by rw [h2]; decide, h3, ?_⟩
  subst et
  refine ⟨⟨["A", "X"], [("A", .str "A"), ("X", .str "X"), ("A", .str "r"), ("X", .str "r")],
        [("A", jsStr "b"), ("X", jsStr "y")]⟩, by decide, ?_, by decide⟩
  exact (h6 [.join "X" (joinPayload (jsStr "r") (jsStr "y"))] _ (by decide) (by decide)).1

/-! ## Execution proxy -/

theorem jsStartsWith_iff (l : List Char) (q : Char) :
    jsStartsWith l q = true ↔ l.head? = some q := by
  cases l with
  | nil => simp [jsStartsWith]
  | cons a rest => simp [jsStartsWith]

theorem jsEndsWith_iff (l : List Char) (q : Char) :
    jsEndsWith l q = true ↔ l.getLast? = some q := by
  unfold jsEndsWith
  by_cases h : l = []
  · subst h; simp
  · have hd := List.drop_left l.dropLast [l.getLast h]
    rw [List.dropLast_append_getLast h, List.length_dropLast] at hd
    rw [hd, List.getLast?_eq_getLast _ h]
    simp

theorem jsSliceInner_eq (l : List Char) : jsSliceInner l = l.tail.dropLast := by
  unfold jsSliceInner
  rw [← List.dropLast_eq_take, List.drop_one, List.tail_dropLast]

theorem specPieces_ne_nil (l : List Char) : specPieces l ≠ [] := by
  induction l using specPieces.induct with
  | case1 => simp [specPieces]
  | case2 c => simp [specPieces]
  | case3 a b rest h ih => simp [specPieces, h]
  | case4 a b rest h hp ih => simp [specPieces, h, hp]
  | case5 a b rest h piece pieces hp ih => simp [specPieces, h, hp]

theorem intercalate_nil_cons (sep : List Char) (ps : List (List Char)) (h : ps ≠ []) :
    List.intercalate sep ([] :: ps) = sep ++ List.intercalate sep ps := by
  cases ps with
  | nil => exact absurd rfl h
  | cons p rest => simp [List.intercalate, List.intersperse]

theorem intercalate_cons_cons (sep : List Char) (a : Char) (piece : List Char)
    (pieces : List (List Char)) :
    List.intercalate sep ((a :: piece) :: pieces) =
      a :: List.intercalate sep (piece :: pieces) := by
  cases pieces with
  | nil => simp [List.intercalate, List.intersperse]
  | cons p rest => simp [List.intercalate, List.intersperse]

theorem replaceEscapedNewlines_eq (l : List Char) :
    replaceEscapedNewlines l = specUnescape l := by
  unfold specUnescape
  induction l using replaceEscapedNewlines.induct with
  | case1 => rfl
  | case2 c => rfl
  | case3 a b rest h ih =>
    rw [replaceEscapedNewlines, if_pos h, ih, specPieces, if_pos h,
      intercalate_nil_cons _ _ (specPieces_ne_nil rest)]
    rfl
  | case4 a b rest h ih =>
    rw [replaceEscapedNewlines, if_neg h, ih, specPieces, if_neg h]
    cases hp : specPieces (b :: rest) with
    | nil => exact absurd hp (specPieces_ne_nil _)
    | cons piece pieces => simp only [intercalate_cons_cons]

theorem specStripQuotes_eq (l : List Char) :
    (if (jsStartsWith l doubleQuote && jsEndsWith l doubleQuote) ||
        (jsStartsWith l singleQuote && jsEndsWith l singleQuote)
      then jsSliceInner l else l) = specStripQuotes l := by
  unfold specStripQuotes
  simp only [Bool.or_eq_true, Bool.and_eq_true, jsStartsWith_iff, jsEndsWith_iff,
    jsSliceInner_eq]

theorem sanitizeOutput_eq_spec (output : Option String) :
    sanitizeOutput output = specNormalize output := by
  cases output with
  | none => rfl
  | some text =>
    by_cases h : text = ""
    · subst h
      decide
    · simp only [sanitizeOutput, specNormalize, if_neg h]
      rw [replaceEscapedNewlines_eq, specStripQuotes_eq]
      rfl

theorem jsTrim_append (l : List Char) :
    l = l.takeWhile isTrimChar ++ jsTrim l ++
      ((l.dropWhile isTrimChar).reverse.takeWhile isTrimChar).reverse := by
  have h1 := List.takeWhile_append_dropWhile isTrimChar l
  have h2 := List.takeWhile_append_dropWhile isTrimChar (l.dropWhile isTrimChar).reverse
  have h3 := congrArg List.reverse h2
  rw [List.reverse_append, List.reverse_reverse] at h3
  unfold jsTrim
  rw [List.append_assoc, h3, h1]

/-- The text between the white space that `trim` removes: the trimmed text is
a middle portion of the input, what was cut off is white space, and the
trimmed text neither starts nor ends with white space. -/
theorem jsTrim_spec (l : List Char) :
    (∃ before after, l = before ++ jsTrim l ++ after ∧
      (∀ c ∈ before, isTrimChar c = true) ∧ (∀ c ∈ after, isTrimChar c = true)) ∧
    (∀ c, (jsTrim l).head? = some c → isTrimChar c = false) ∧
    (∀ c, (jsTrim l).getLast? = some c → isTrimChar c = false) := by
  refine ⟨⟨_, _, jsTrim_append l, fun c hc => List.mem_takeWhile_imp hc,
    fun c hc => List.mem_takeWhile_imp (List.mem_reverse.1 hc)⟩, ?_, ?_⟩
  · intro c hc
    have hne : jsTrim l ≠ [] := by
      intro e; rw [e] at hc; cases hc
    have h3 : l.dropWhile isTrimChar = jsTrim l ++
        ((l.dropWhile isTrimChar).reverse.takeWhile isTrimChar).reverse := by
      have h2 := List.takeWhile_append_dropWhile isTrimChar (l.dropWhile isTrimChar).reverse
      have h3 := congrArg List.reverse h2
      rw [List.reverse_append, List.reverse_reverse] at h3
      exact h3.symm
    have h4 := List.head?_dropWhile_not isTrimChar l
    rw [h3, List.head?_append_of_ne_nil _ hne, hc] at h4
    exact h4
  · intro c hc
    have hne : List.rdropWhile isTrimChar (l.dropWhile isTrimChar) ≠ [] := by
      intro e
      have e2 : jsTrim l = [] := e
      rw [e2] at hc; cases hc
    have h := List.rdropWhile_last_not isTrimChar (l.dropWhile isTrimChar) hne
    have hc2 : (List.rdropWhile isTrimChar (l.dropWhile isTrimChar)).getLast? = some c := hc
    rw [List.getLast?_eq_getLast _ hne] at hc2
    rw [← Option.some.inj hc2]
    simpa using h

theorem head_replaceEscapedNewlines (l : List Char) (x : Char)
    (h : (replaceEscapedNewlines l).head? = some x) : x = lineFeed ∨ l.head? = some x := by
  match l with
  | [] => simp [replaceEscapedNewlines] at h
  | [c] => right; simpa [replaceEscapedNewlines] using h
  | a :: b :: rest =>
    rw [replaceEscapedNewlines] at h
    by_cases hc : a = backslash ∧ b = 'n'
    · rw [if_pos hc] at h
      left
      simpa using h.symm
    · rw [if_neg hc] at h
      right
      simpa using h

/-- After the replacement no backslash is followed by the letter n. -/
theorem replaceEscapedNewlines_complete (l : List Char) :
    ¬ [backslash, 'n'] <:+: replaceEscapedNewlines l := by
  induction l using replaceEscapedNewlines.induct with
  | case1 => simp [replaceEscapedNewlines]
  | case2 c =>
    intro h
    have := h.length_le
    simp [replaceEscapedNewlines] at this
  | case3 a b rest h ih =>
    rw [replaceEscapedNewlines, if_pos h, List.infix_cons_iff]
    rintro (hp | hi)
    · have h1 := (List.cons_prefix_cons.1 hp).1
      exact absurd h1 (by decide)
    · exact ih hi
  | case4 a b rest h ih =>
    rw [replaceEscapedNewlines, if_neg h, List.infix_cons_iff]
    rintro (hp | hi)
    · obtain ⟨h1, h2⟩ := List.cons_prefix_cons.1 hp
      obtain ⟨t, ht⟩ := h2
      have hh : (replaceEscapedNewlines (b :: rest)).head? = some 'n' := by
        rw [← ht]; rfl
      rcases head_replaceEscapedNewlines _ _ hh with h3 | h3
      · exact absurd h3 (by decide)
      · have hb : b = 'n' := by simpa using h3
        exact h ⟨h1.symm, hb⟩
    · exact ih hi

/-- C9: `sanitizeOutput` is the normalization the specification words: trim
the surrounding white space, then turn every escaped newline sequence
(backslash, n) into a line feed, then drop the first and the last character
when the text starts and ends with the same quote character, single or double;
an absent or empty output gives the empty string.  The trimming cuts white
space only and leaves a text that neither starts nor ends with white space;
after the replacement no backslash is followed by n.  The output made of two
spaces, a single quote, hello, backslash, n, world, a single quote and two
spaces is sanitized to hello, line feed, world. -/
theorem sanitizeOutput_normalizes :
    (∀ output, sanitizeOutput output = specNormalize output) ∧
    (∀ l, (∃ before after, l = before ++ jsTrim l ++ after ∧
        (∀ c ∈ before, isTrimChar c = true) ∧ (∀ c ∈ after, isTrimChar c = true)) ∧
      (∀ c, (jsTrim l).head? = some c → isTrimChar c = false) ∧
      (∀ c, (jsTrim l).getLast? = some c → isTrimChar c = false)) ∧
    (∀ l, ¬ [backslash, 'n'] <:+: replaceEscapedNewlines l) ∧
    sanitizeOutput none = "" ∧ sanitizeOutput (some "") = "" ∧
    sanitizeOutput (some "  \x27hello\\nworld\x27  ") = "hello\nworld" ∧
    "  \x27hello\\nworld\x27  ".data =
      [' ', ' ', singleQuote, 'h', 'e', 'l', 'l', 'o', backslash, 'n', 'w', 'o', 'r', 'l', 'd',
        singleQuote, ' ', ' '] ∧
    "hello\nworld".data = ['h', 'e', 'l', 'l', 'o', lineFeed, 'w', 'o', 'r', 'l', 'd'] :=
  ⟨sanitizeOutput_eq_spec, jsTrim_spec, replaceEscapedNewlines_complete,
    by decide, by decide, by decide, by decide, by decide⟩

theorem lookup_none_of_not_mem (k : String) (l : List (String × LanguageConfig))
    (h : k ∉ l.map Prod.fst) : l.lookup k = none := by
  induction l with
  | nil => rfl
  | cons p rest ih =>
    obtain ⟨a, c⟩ := p
    rw [List.map_cons, List.mem_cons, not_or] at h
    have hb : (k == a) = false := by simpa using h.1
    simp only [List.lookup, hb]
    exact ih h.2

theorem lookupLanguage_undefined (language : String) (h1 : language ∉ supportedLanguages)
    (h2 : language ∉ objectPrototypeKeys) : lookupLanguage language = .undefined := by
  have h3 : languageConfig.lookup language = none := lookup_none_of_not_mem _ _ h1
  unfold lookupLanguage
  rw [h3]
  simp only [h2, if_false]

theorem lookupLanguage_inherited (language : String) (h : language ∈ objectPrototypeKeys) :
    lookupLanguage language = .inherited := by
  simp only [objectPrototypeKeys, List.mem_cons, List.mem_singleton, List.not_mem_nil,
    or_false] at h
  rcases h with h | h | h | h | h | h | h | h | h | h | h | h <;> subst h <;> rfl

/-- A request with a language that is neither in the table nor a property name
inherited from `Object.prototype` is answered with status 400 and the message
naming the language, and nothing is posted upstream. -/
theorem unsupported_language_rejected (upstream : Upstream) (code language : String)
    (hc : code ≠ "") (hl : language ≠ "") (h1 : language ∉ supportedLanguages)
    (h2 : language ∉ objectPrototypeKeys) :
    compileHandler upstream ⟨some code, some language⟩ =
      ⟨400, .jsonError ("Unsupported language: " ++ language), []⟩ := by
  simp [compileHandler, truthy, hc, hl, lookupLanguage_undefined language h1 h2]

/-- A request whose code or language is absent or empty is answered with status
400 and an error message, and nothing is posted upstream. -/
theorem missing_parameters_rejected (upstream : Upstream) (req : CompileRequest)
    (h : truthy req.code = false ∨ truthy req.language = false) :
    compileHandler upstream req =
      ⟨400, .jsonError "Missing required parameters: code and language", []⟩ := by
  unfold compileHandler
  rw [if_pos]
  rcases h with h | h
  · left; simp [h]
  · right; simp [h]

/-- C10, the code at the failing input: `constructor` is not one of the ten
identifiers of the language table, yet a request for it (and for every other
property name inherited from `Object.prototype`) with a non-empty code passes
the test `!config`; `preprocessCode` then throws, and the handler answers with
status 500 and the generic message instead of status 400 and a message naming
the language.  Nothing is posted upstream. -/
theorem inherited_language_not_rejected (upstream : Upstream) :
    "constructor" ∉ supportedLanguages ∧
    compileHandler upstream ⟨some "print(1)", some "constructor"⟩ =
      ⟨500, .jsonError "Failed to compile code", []⟩ ∧
    (∀ language ∈ objectPrototypeKeys, language ∉ supportedLanguages ∧
      ∀ code, code ≠ "" → compileHandler upstream ⟨some code, some language⟩ =
        ⟨500, .jsonError "Failed to compile code", []⟩) := by
  have hall : ∀ language ∈ objectPrototypeKeys, language ∉ supportedLanguages ∧
      ∀ code, code ≠ "" → compileHandler upstream ⟨some code, some language⟩ =
        ⟨500, .jsonError "Failed to compile code", []⟩ := by
    intro language hl
    have hne : language ≠ "" := by
      intro e; subst e
      exact absurd hl (by decide)
    refine ⟨?_, ?_⟩
    · simp only [objectPrototypeKeys, List.mem_cons, List.mem_singleton, List.not_mem_nil,
        or_false] at hl
      rcases hl with h | h | h | h | h | h | h | h | h | h | h | h <;> subst h <;> decide
    · intro code hc
      simp [compileHandler, truthy, hc, hne, lookupLanguage_inherited language hl,
        preprocessCode, failureResponse]
  exact ⟨by decide, (hall "constructor" (by decide)).2 "print(1)" (by decide), hall⟩

end Collab
